import Mathlib

/-!
# Verification of the go-amqp wire codec and sender link state machine

This file gives a shallow embedding, in Lean 4, of the parts of the
Azure/go-amqp client library that the specification claims talk about:

* the AMQP 1.0 type codec (typed arrays, composites such as `source`,
  the described-type machinery and the primitive encoders),
* `peekMessageType`, the router's performative sniffing function,
* the `Sender` link: `Sender.send` payload chunking, delivery-tag
  handling, the `mux` credit/flow state machine, disposition handling,
  the attach-time settle-mode guard, and
* the manual creditor used by manual-credit receivers.

Go byte slices are modelled as `List Nat` whose elements are below 256
whenever they come off the wire; machine integers are `Nat` with explicit
`% 2^32` / `% 2^64` wherever the Go code can truncate or wrap.  Fallible
Go functions returning `error` are modelled with `Option` / `Except`.

Functions present in the sources are translated directly.  Generic codec
helpers (`writeString`, `readString`, `marshalComposite`,
`unmarshalComposite`, the array/map/list header readers and writers,
`readAny`) are declared by the sources but defined in files that are not
part of the source snapshot; those definitions are modelled from the
specification and are marked `Modelled from the spec:` in their doc
comments.
-/

/-! ## Bytes and big-endian integer helpers -/

/-- A Go byte slice: a list of byte values. -/
abbrev Bytes := List Nat

/-- Big-endian encoding of a 16-bit value (`binary.BigEndian.PutUint16`). -/
def beBytes2 (n : Nat) : Bytes :=
  [n / 2 ^ 8 % 256, n % 256]

/-- Big-endian encoding of a 32-bit value (`binary.BigEndian.PutUint32` /
`Buffer.AppendUint32`).  Each output byte is reduced mod 256, so values
at or above `2^32` are truncated exactly as a Go `uint32` conversion would. -/
def beBytes4 (n : Nat) : Bytes :=
  [n / 2 ^ 24 % 256, n / 2 ^ 16 % 256, n / 2 ^ 8 % 256, n % 256]

/-- Big-endian encoding of a 64-bit value (`binary.BigEndian.PutUint64`). -/
def beBytes8 (n : Nat) : Bytes :=
  [n / 2 ^ 56 % 256, n / 2 ^ 48 % 256, n / 2 ^ 40 % 256, n / 2 ^ 32 % 256,
   n / 2 ^ 24 % 256, n / 2 ^ 16 % 256, n / 2 ^ 8 % 256, n % 256]

/-- Read a single byte (`Buffer.ReadByte`): fails on an empty buffer. -/
def readByte (bs : Bytes) : Option (Nat × Bytes) :=
  match bs with
  | [] => none
  | b :: r => some (b, r)

/-- Read `n` bytes (`Buffer.Next(n)` in the decode paths, where the
`ok` result is checked): fails when fewer than `n` bytes remain. -/
def readN (n : Nat) (bs : Bytes) : Option (Bytes × Bytes) :=
  if n ≤ bs.length then some (bs.take n, bs.drop n) else none

/-- Read a big-endian 32-bit integer (`binary.BigEndian.Uint32`). -/
def readU32 (bs : Bytes) : Option (Nat × Bytes) :=
  match bs with
  | b0 :: b1 :: b2 :: b3 :: r => some (((b0 * 256 + b1) * 256 + b2) * 256 + b3, r)
  | _ => none

/-- Read a big-endian 64-bit integer (`binary.BigEndian.Uint64`). -/
def readU64 (bs : Bytes) : Option (Nat × Bytes) :=
  match bs with
  | b0 :: b1 :: b2 :: b3 :: b4 :: b5 :: b6 :: b7 :: r =>
      some ((((((((b0 * 256 + b1) * 256 + b2) * 256 + b3) * 256 + b4)
        * 256 + b5) * 256 + b6) * 256 + b7), r)
  | _ => none

/-- Addition of two `uint32` values, with Go's wrap-around semantics. -/
def u32add (a b : Nat) : Nat := (a + b) % 2 ^ 32

/-- Subtraction `a - b` of two `uint32` values with Go's wrap-around
semantics (assuming both inputs are already reduced below `2^32`). -/
def u32sub (a b : Nat) : Nat := (a + 2 ^ 32 - b % 2 ^ 32) % 2 ^ 32

theorem readN_append (xs r : Bytes) : readN xs.length (xs ++ r) = some (xs, r) := by
  simp [readN, List.take_left, List.drop_left]

theorem readU32_beBytes4 (n : Nat) (r : Bytes) :
    readU32 (beBytes4 n ++ r) = some (n % 2 ^ 32, r) := by
  simp only [beBytes4, List.cons_append, List.nil_append, readU32]
  congr 1
  congr 1
  omega

theorem readU32_beBytes4_lt (n : Nat) (r : Bytes) (h : n < 2 ^ 32) :
    readU32 (beBytes4 n ++ r) = some (n, r) := by
  rw [readU32_beBytes4, Nat.mod_eq_of_lt h]

theorem readU64_beBytes8 (n : Nat) (r : Bytes) :
    readU64 (beBytes8 n ++ r) = some (n % 2 ^ 64, r) := by
  simp only [beBytes8, List.cons_append, List.nil_append, readU64]
  congr 1
  congr 1
  omega

theorem readU64_beBytes8_lt (n : Nat) (r : Bytes) (h : n < 2 ^ 64) :
    readU64 (beBytes8 n ++ r) = some (n, r) := by
  rw [readU64_beBytes8, Nat.mod_eq_of_lt h]

theorem beBytes8_length (n : Nat) : (beBytes8 n).length = 8 := rfl

theorem beBytes4_length (n : Nat) : (beBytes4 n).length = 4 := rfl

theorem beBytes8_inj_mod (a b : Nat) (h : beBytes8 a = beBytes8 b) :
    a % 2 ^ 64 = b % 2 ^ 64 := by
  have ha := readU64_beBytes8 a []
  have hb := readU64_beBytes8 b []
  rw [h] at ha
  rw [ha] at hb
  have := (Option.some.injEq _ _).mp hb
  exact (Prod.mk.injEq _ _ _ _ ▸ this).1

/-! ## Primitive AMQP type encoders and decoders

The type codes below are the constants from the sources (`typeCodeNull =
0x40 = 64`, `typeCodeBoolTrue = 0x41 = 65`, `typeCodeBoolFalse = 0x42 = 66`,
`typeCodeUint0 = 0x43 = 67`, `typeCodeSmallUint = 0x52 = 82`,
`typeCodeUint = 0x70 = 112`, `typeCodeUlong0 = 0x44 = 68`,
`typeCodeSmallUlong = 0x53 = 83`, `typeCodeUlong = 0x80 = 128`,
`typeCodeVbin8 = 0xa0 = 160`, `typeCodeVbin32 = 0xb0 = 176`,
`typeCodeStr8 = 0xa1 = 161`, `typeCodeStr32 = 0xb1 = 177`,
`typeCodeSym8 = 0xa3 = 163`, `typeCodeSym32 = 0xb3 = 179`,
`typeCodeList0 = 0x45 = 69`, `typeCodeList32 = 0xd0 = 208`,
`typeCodeMap32 = 0xd1 = 209`, `typeCodeArray8 = 0xe0 = 224`,
`typeCodeArray32 = 0xf0 = 240`, `typeCodeBool = 0x56 = 86`). -/

/-- Modelled from the spec: `writeBool` — booleans use the dedicated
true/false format codes. -/
def writeBool (b : Bool) : Bytes :=
  if b then [0x41] else [0x42]

/-- Modelled from the spec: `writeUint32` — the encoder picks the smallest
of `uint0`, `smalluint` and full `uint` that fits the value. -/
def writeUint32 (n : Nat) : Bytes :=
  if n = 0 then [0x43]
  else if n < 256 then [0x52, n]
  else 0x70 :: beBytes4 n

/-- Modelled from the spec: `writeUint64` — smallest of `ulong0`,
`smallulong` and full `ulong`. -/
def writeUint64 (n : Nat) : Bytes :=
  if n = 0 then [0x44]
  else if n < 256 then [0x53, n]
  else 0x80 :: beBytes8 n

/-- Modelled from the spec: `writeString` — strings use the `str8` form
when shorter than 256 bytes and `str32` below `2^32 - 1` bytes; anything
longer is an error.  (The Go UTF-8 validity check has no effect on the
byte-level encoding and is not modelled; strings are byte lists here.) -/
def writeString (s : Bytes) : Option Bytes :=
  if s.length < 256 then some (0xa1 :: s.length :: s)
  else if s.length < 2 ^ 32 - 1 then some (0xb1 :: (beBytes4 s.length ++ s))
  else none

/-- `symbol.marshal` translated from the sources: `sym8` below 256 bytes,
`sym32` below `2^32 - 1` bytes, error otherwise. -/
def writeSymbol (s : Bytes) : Option Bytes :=
  if s.length < 256 then some (0xa3 :: s.length :: s)
  else if s.length < 2 ^ 32 - 1 then some (0xb3 :: (beBytes4 s.length ++ s))
  else none

/-- Modelled from the spec: `writeBinary` — `vbin8`/`vbin32` forms. -/
def writeBinary (s : Bytes) : Option Bytes :=
  if s.length < 256 then some (0xa0 :: s.length :: s)
  else if s.length < 2 ^ 32 - 1 then some (0xb0 :: (beBytes4 s.length ++ s))
  else none

/-- Modelled from the spec: `readBool` — accepts the encoded boolean and
the dedicated true/false format codes. -/
def readBool (bs : Bytes) : Option (Bool × Bytes) :=
  match bs with
  | [] => none
  | c :: r =>
    if c = 0x41 then some (true, r)
    else if c = 0x42 then some (false, r)
    else if c = 0x56 then
      match r with
      | [] => none
      | b :: r2 => some (b ≠ 0, r2)
    else none

/-- Modelled from the spec: `readUint32` — accepts `uint0`, `smalluint`
and full `uint` forms. -/
def readUint (bs : Bytes) : Option (Nat × Bytes) :=
  match bs with
  | [] => none
  | c :: r =>
    if c = 0x43 then some (0, r)
    else if c = 0x52 then
      match r with
      | [] => none
      | b :: r2 => some (b, r2)
    else if c = 0x70 then readU32 r
    else none

/-- Modelled from the spec: `readUlong` — accepts `ulong0`, `smallulong`
and full `ulong` forms. -/
def readUlong (bs : Bytes) : Option (Nat × Bytes) :=
  match bs with
  | [] => none
  | c :: r =>
    if c = 0x44 then some (0, r)
    else if c = 0x53 then
      match r with
      | [] => none
      | b :: r2 => some (b, r2)
    else if c = 0x80 then readU64 r
    else none

/-- Modelled from the spec: `readString` — accepts `str8`/`str32` and
also the symbol forms `sym8`/`sym32`, returning the raw bytes. -/
def readString (bs : Bytes) : Option (Bytes × Bytes) :=
  match bs with
  | [] => none
  | c :: r =>
    if c = 0xa1 ∨ c = 0xa3 then
      match r with
      | [] => none
      | n :: r2 => readN n r2
    else if c = 0xb1 ∨ c = 0xb3 then
      (readU32 r).bind fun p => readN p.1 p.2
    else none

/-- Modelled from the spec: `readBinary` — `vbin8`/`vbin32` forms. -/
def readBinary (bs : Bytes) : Option (Bytes × Bytes) :=
  match bs with
  | [] => none
  | c :: r =>
    if c = 0xa0 then
      match r with
      | [] => none
      | n :: r2 => readN n r2
    else if c = 0xb0 then
      (readU32 r).bind fun p => readN p.1 p.2
    else none

/-! ## Dynamically typed values

Go `interface{}`-typed codec values (map values, described-type
descriptors, the `source.DefaultOutcome` field) are modelled by the
tagged variant below, as suggested by the specification's design notes.
`anull` plays the role of the Go `nil` interface. -/

/-- A dynamically typed AMQP value, restricted to the variants the
claims exercise (null, booleans, 32/64-bit unsigned integers, strings,
symbols and binary). -/
inductive AVal : Type where
  | anull : AVal
  | abool (b : Bool) : AVal
  | auint32 (n : Nat) : AVal
  | aulong (n : Nat) : AVal
  | astr (s : Bytes) : AVal
  | asym (s : Bytes) : AVal
  | abin (s : Bytes) : AVal
deriving DecidableEq

/-- Modelled from the spec: the dynamic dispatch of `marshal` on an
`interface{}` value, restricted to the `AVal` variants. -/
def marshalAny : AVal → Option Bytes
  | .anull => some [0x40]
  | .abool b => some (writeBool b)
  | .auint32 n => some (writeUint32 n)
  | .aulong n => some (writeUint64 n)
  | .astr s => writeString s
  | .asym s => writeSymbol s
  | .abin s => writeBinary s

/-- Modelled from the spec: `readAny` — peeks the format code and
dispatches to the matching reader, restricted to the `AVal` variants
(the specification's tagged-variant design decodes symbols as symbols,
preserving round-trip exactness). -/
def readAny (bs : Bytes) : Option (AVal × Bytes) :=
  match bs with
  | [] => none
  | c :: r =>
    if c = 0x40 then some (.anull, r)
    else if c = 0x41 ∨ c = 0x42 ∨ c = 0x56 then
      (readBool bs).bind fun p => some (.abool p.1, p.2)
    else if c = 0x43 ∨ c = 0x52 ∨ c = 0x70 then
      (readUint bs).bind fun p => some (.auint32 p.1, p.2)
    else if c = 0x44 ∨ c = 0x53 ∨ c = 0x80 then
      (readUlong bs).bind fun p => some (.aulong p.1, p.2)
    else if c = 0xa1 ∨ c = 0xb1 then
      (readString bs).bind fun p => some (.astr p.1, p.2)
    else if c = 0xa3 ∨ c = 0xb3 then
      (readString bs).bind fun p => some (.asym p.1, p.2)
    else if c = 0xa0 ∨ c = 0xb0 then
      (readBinary bs).bind fun p => some (.abin p.1, p.2)
    else none

/-- Well-formedness of a dynamic value: integers fit their machine
width, byte strings fit the 32-bit length prefix. -/
def AVal.wfb : AVal → Bool
  | .anull => true
  | .abool _ => true
  | .auint32 n => n < 2 ^ 32
  | .aulong n => n < 2 ^ 64
  | .astr s => s.length < 2 ^ 32 - 1
  | .asym s => s.length < 2 ^ 32 - 1
  | .abin s => s.length < 2 ^ 32 - 1

/-! ## Round-trip lemmas for the primitive encoders -/

theorem readBool_writeBool (b : Bool) (r : Bytes) :
    readBool (writeBool b ++ r) = some (b, r) := by
  cases b <;> simp [writeBool, readBool]

theorem readUint_writeUint32 (n : Nat) (r : Bytes) (h : n < 2 ^ 32) :
    readUint (writeUint32 n ++ r) = some (n, r) := by
  by_cases h0 : n = 0
  · simp [writeUint32, readUint, h0]
  · by_cases hs : n < 256
    · simp [writeUint32, readUint, h0, hs]
    · simp only [writeUint32, if_neg h0, if_neg hs, List.cons_append, readUint]
      norm_num [readU32_beBytes4_lt n r h]

theorem readUlong_writeUint64 (n : Nat) (r : Bytes) (h : n < 2 ^ 64) :
    readUlong (writeUint64 n ++ r) = some (n, r) := by
  by_cases h0 : n = 0
  · simp [writeUint64, readUlong, h0]
  · by_cases hs : n < 256
    · simp [writeUint64, readUlong, h0, hs]
    · simp only [writeUint64, if_neg h0, if_neg hs, List.cons_append, readUlong]
      norm_num [readU64_beBytes8_lt n r h]

theorem readString_writeString (s : Bytes) (enc r : Bytes)
    (henc : writeString s = some enc) :
    readString (enc ++ r) = some (s, r) := by
  by_cases h8 : s.length < 256
  · simp only [writeString, if_pos h8, Option.some.injEq] at henc
    subst henc
    simp only [List.cons_append, readString]
    norm_num
    have : s ++ r = s ++ r := rfl
    simpa using readN_append s r
  · by_cases h32 : s.length < 2 ^ 32 - 1
    · simp only [writeString, if_neg h8, if_pos h32, Option.some.injEq] at henc
      subst henc
      simp only [List.cons_append, List.append_assoc, readString]
      norm_num
      rw [readU32_beBytes4_lt s.length _ (by omega)]
      simpa using readN_append s r
    · rw [writeString, if_neg h8, if_neg h32] at henc
      exact Option.noConfusion henc

theorem readString_writeSymbol (s : Bytes) (enc r : Bytes)
    (henc : writeSymbol s = some enc) :
    readString (enc ++ r) = some (s, r) := by
  by_cases h8 : s.length < 256
  · simp only [writeSymbol, if_pos h8, Option.some.injEq] at henc
    subst henc
    simp only [List.cons_append, readString]
    norm_num
    simpa using readN_append s r
  · by_cases h32 : s.length < 2 ^ 32 - 1
    · simp only [writeSymbol, if_neg h8, if_pos h32, Option.some.injEq] at henc
      subst henc
      simp only [List.cons_append, List.append_assoc, readString]
      norm_num
      rw [readU32_beBytes4_lt s.length _ (by omega)]
      simpa using readN_append s r
    · rw [writeSymbol, if_neg h8, if_neg h32] at henc
      exact Option.noConfusion henc

theorem readBinary_writeBinary (s : Bytes) (enc r : Bytes)
    (henc : writeBinary s = some enc) :
    readBinary (enc ++ r) = some (s, r) := by
  by_cases h8 : s.length < 256
  · simp only [writeBinary, if_pos h8, Option.some.injEq] at henc
    subst henc
    simp only [List.cons_append, readBinary]
    norm_num
    simpa using readN_append s r
  · by_cases h32 : s.length < 2 ^ 32 - 1
    · simp only [writeBinary, if_neg h8, if_pos h32, Option.some.injEq] at henc
      subst henc
      simp only [List.cons_append, List.append_assoc, readBinary]
      norm_num
      rw [readU32_beBytes4_lt s.length _ (by omega)]
      simpa using readN_append s r
    · rw [writeBinary, if_neg h8, if_neg h32] at henc
      exact Option.noConfusion henc

/-- The format code that `marshalAny` emits first, per variant. -/
theorem marshalAny_head (v : AVal) (enc : Bytes) (henc : marshalAny v = some enc) :
    enc ≠ [] ∧ (v ≠ .anull → enc.head? ≠ some 0x40) := by
  cases v with
  | anull =>
    simp only [marshalAny, Option.some.injEq] at henc
    subst henc
    simp
  | abool b =>
    simp only [marshalAny, Option.some.injEq] at henc
    subst henc
    cases b <;> simp [writeBool]
  | auint32 n =>
    simp only [marshalAny, Option.some.injEq] at henc
    subst henc
    by_cases h0 : n = 0
    · simp [writeUint32, h0]
    · by_cases hs : n < 256 <;> simp [writeUint32, h0, hs]
  | aulong n =>
    simp only [marshalAny, Option.some.injEq] at henc
    subst henc
    by_cases h0 : n = 0
    · simp [writeUint64, h0]
    · by_cases hs : n < 256 <;> simp [writeUint64, h0, hs]
  | astr s =>
    simp only [marshalAny, writeString] at henc
    by_cases h8 : s.length < 256
    · rw [if_pos h8] at henc
      cases henc
      simp
    · rw [if_neg h8] at henc
      by_cases h32 : s.length < 2 ^ 32 - 1
      · rw [if_pos h32] at henc
        cases henc
        simp
      · rw [if_neg h32] at henc
        exact Option.noConfusion henc
  | asym s =>
    simp only [marshalAny, writeSymbol] at henc
    by_cases h8 : s.length < 256
    · rw [if_pos h8] at henc
      cases henc
      simp
    · rw [if_neg h8] at henc
      by_cases h32 : s.length < 2 ^ 32 - 1
      · rw [if_pos h32] at henc
        cases henc
        simp
      · rw [if_neg h32] at henc
        exact Option.noConfusion henc
  | abin s =>
    simp only [marshalAny, writeBinary] at henc
    by_cases h8 : s.length < 256
    · rw [if_pos h8] at henc
      cases henc
      simp
    · rw [if_neg h8] at henc
      by_cases h32 : s.length < 2 ^ 32 - 1
      · rw [if_pos h32] at henc
        cases henc
        simp
      · rw [if_neg h32] at henc
        exact Option.noConfusion henc

/-- Round-trip of dynamically typed values. -/
theorem readAny_marshalAny (v : AVal) (enc r : Bytes)
    (hwf : AVal.wfb v = true) (henc : marshalAny v = some enc) :
    readAny (enc ++ r) = some (v, r) := by
  cases v with
  | anull =>
    simp only [marshalAny, Option.some.injEq] at henc
    subst henc
    simp [readAny]
  | abool b =>
    simp only [marshalAny, Option.some.injEq] at henc
    subst henc
    have hrt := readBool_writeBool b r
    cases b <;> simp_all [writeBool, readAny, readBool]
  | auint32 n =>
    simp only [marshalAny, Option.some.injEq] at henc
    subst henc
    simp only [AVal.wfb, decide_eq_true_eq] at hwf
    have hrt := readUint_writeUint32 n r hwf
    by_cases h0 : n = 0
    · subst h0
      simp only [writeUint32] at hrt ⊢
      norm_num at hrt ⊢
      simp [readAny, hrt]
    · by_cases hs : n < 256
      · simp only [writeUint32, if_neg h0, if_pos hs] at hrt ⊢
        simp only [List.cons_append, readAny]
        norm_num
        simp only [List.cons_append, List.nil_append, List.append_assoc] at hrt ⊢
        rw [hrt]
        rfl
      · simp only [writeUint32, if_neg h0, if_neg hs] at hrt ⊢
        simp only [List.cons_append, readAny]
        norm_num
        simp only [List.cons_append, List.nil_append, List.append_assoc] at hrt ⊢
        rw [hrt]
        rfl
  | aulong n =>
    simp only [marshalAny, Option.some.injEq] at henc
    subst henc
    simp only [AVal.wfb, decide_eq_true_eq] at hwf
    have hrt := readUlong_writeUint64 n r hwf
    by_cases h0 : n = 0
    · subst h0
      simp only [writeUint64] at hrt ⊢
      norm_num at hrt ⊢
      simp [readAny, hrt]
    · by_cases hs : n < 256
      · simp only [writeUint64, if_neg h0, if_pos hs] at hrt ⊢
        simp only [List.cons_append, readAny]
        norm_num
        simp only [List.cons_append, List.nil_append, List.append_assoc] at hrt ⊢
        rw [hrt]
        rfl
      · simp only [writeUint64, if_neg h0, if_neg hs] at hrt ⊢
        simp only [List.cons_append, readAny]
        norm_num
        simp only [List.cons_append, List.nil_append, List.append_assoc] at hrt ⊢
        rw [hrt]
        rfl
  | astr s =>
    have hrt := readString_writeString s enc r henc
    simp only [marshalAny, writeString] at henc
    by_cases h8 : s.length < 256
    · rw [if_pos h8] at henc
      cases henc
      simp only [List.cons_append, readAny]
      norm_num
      simp only [List.cons_append, List.nil_append, List.append_assoc] at hrt ⊢
      rw [hrt]
      rfl
    · rw [if_neg h8] at henc
      by_cases h32 : s.length < 2 ^ 32 - 1
      · rw [if_pos h32] at henc
        cases henc
        simp only [List.cons_append, readAny]
        norm_num
        simp only [List.cons_append, List.nil_append, List.append_assoc] at hrt ⊢
        rw [hrt]
        rfl
      · rw [if_neg h32] at henc
        exact Option.noConfusion henc
  | asym s =>
    have hrt := readString_writeSymbol s enc r henc
    simp only [marshalAny, writeSymbol] at henc
    by_cases h8 : s.length < 256
    · rw [if_pos h8] at henc
      cases henc
      simp only [List.cons_append, readAny]
      norm_num
      simp only [List.cons_append, List.nil_append, List.append_assoc] at hrt ⊢
      rw [hrt]
      rfl
    · rw [if_neg h8] at henc
      by_cases h32 : s.length < 2 ^ 32 - 1
      · rw [if_pos h32] at henc
        cases henc
        simp only [List.cons_append, readAny]
        norm_num
        simp only [List.cons_append, List.nil_append, List.append_assoc] at hrt ⊢
        rw [hrt]
        rfl
      · rw [if_neg h32] at henc
        exact Option.noConfusion henc
  | abin s =>
    have hrt := readBinary_writeBinary s enc r henc
    simp only [marshalAny, writeBinary] at henc
    by_cases h8 : s.length < 256
    · rw [if_pos h8] at henc
      cases henc
      simp only [List.cons_append, readAny]
      norm_num
      simp only [List.cons_append, List.nil_append, List.append_assoc] at hrt ⊢
      rw [hrt]
      rfl
    · rw [if_neg h8] at henc
      by_cases h32 : s.length < 2 ^ 32 - 1
      · rw [if_pos h32] at henc
        cases henc
        simp only [List.cons_append, readAny]
        norm_num
        simp only [List.cons_append, List.nil_append, List.append_assoc] at hrt ⊢
        rw [hrt]
        rfl
      · rw [if_neg h32] at henc
        exact Option.noConfusion henc

/-! ## Described types and maps

Go maps are modelled as association lists (insertion order); the Go
iteration-order nondeterminism is outside the byte-level model, as the
specification itself notes for generic maps. -/

/-- `describedType` translated from the sources: a descriptor/value pair
of dynamically typed values. -/
structure describedType where
  descriptor : AVal
  value : AVal
deriving DecidableEq

/-- `describedType.marshal` translated from the sources: the `0x00`
described-type constructor, then descriptor, then value. -/
def describedType.marshal (t : describedType) : Option Bytes :=
  (marshalAny t.descriptor).bind fun d =>
    (marshalAny t.value).bind fun v =>
      some (0 :: (d ++ v))

/-- `describedType.unmarshal` translated from the sources: expects the
`0x00` constructor byte, then reads descriptor and value dynamically. -/
def describedType.unmarshal (bs : Bytes) : Option (describedType × Bytes) :=
  match bs with
  | [] => none
  | b :: r =>
    if b = 0 then
      (readAny r).bind fun d =>
        (readAny d.2).bind fun v =>
          some (⟨d.1, v.1⟩, v.2)
    else none

def describedType.wfb (t : describedType) : Bool :=
  t.descriptor.wfb && t.value.wfb

theorem describedType_roundtrip (t : describedType) (enc r : Bytes)
    (hwf : t.wfb = true) (henc : describedType.marshal t = some enc) :
    describedType.unmarshal (enc ++ r) = some (t, r) := by
  simp only [describedType.wfb, Bool.and_eq_true] at hwf
  simp only [describedType.marshal, Option.bind_eq_bind, Option.bind_eq_some,
    Option.some.injEq] at henc
  obtain ⟨d, hd, v, hv, henc⟩ := henc
  subst henc
  simp only [List.cons_append, describedType.unmarshal, if_pos rfl, List.append_assoc]
  rw [readAny_marshalAny t.descriptor d _ hwf.1 hd]
  simp only [Option.bind_eq_bind, Option.some_bind]
  rw [readAny_marshalAny t.value v r hwf.2 hv]
  rfl

/-- Modelled from the spec: `writeMapPairs` — the key/value payload of an
encoded map, keys encoded as symbols, values by the given encoder. -/
def writeMapPairs {V : Type} (wv : V → Option Bytes) : List (Bytes × V) → Option Bytes
  | [] => some []
  | (k, v) :: rest =>
    (writeSymbol k).bind fun kb =>
      (wv v).bind fun vb =>
        (writeMapPairs wv rest).bind fun rb =>
          some (kb ++ (vb ++ rb))

/-- Modelled from the spec: `writeMap` — emits the `map32` form: format
code, size (count field plus payload), element count (twice the number
of pairs, truncated to `uint32`), then the key/value payload. -/
def writeMap {V : Type} (wv : V → Option Bytes) (m : List (Bytes × V)) : Option Bytes :=
  if 2 ^ 32 ≤ 2 * m.length then none
  else
    (writeMapPairs wv m).bind fun payload =>
      some (0xd1 :: (beBytes4 (payload.length + 4) ++ (beBytes4 (2 * m.length) ++ payload)))

/-- Modelled from the spec: `readMapHeader` — accepts `map8`/`map32`,
checks the recorded size against the remaining buffer, and returns the
element count. -/
def readMapHeader (bs : Bytes) : Option (Nat × Bytes) :=
  match bs with
  | 0xc1 :: size :: count :: r =>
    if size ≤ r.length + 1 then some (count, r) else none
  | 0xd1 :: r =>
    (readU32 r).bind fun ps =>
      (readU32 ps.2).bind fun pc =>
        if ps.1 ≤ ps.2.length then some (pc.1, pc.2) else none
  | _ => none

/-- Modelled from the spec: the key/value reading loop shared by the
map unmarshalers (`for i := 0; i < count; i += 2`), reading a symbol key
with `readString` and a value with the given reader, one iteration per
pair. -/
def readMapPairs {V : Type} (rv : Bytes → Option (V × Bytes)) :
    Nat → Bytes → Option (List (Bytes × V) × Bytes)
  | 0, bs => some ([], bs)
  | n + 1, bs =>
    (readString bs).bind fun k =>
      (rv k.2).bind fun v =>
        (readMapPairs rv n v.2).bind fun rest =>
          some ((k.1, v.1) :: rest.1, rest.2)

theorem writeMapPairs_roundtrip {V : Type} (wv : V → Option Bytes)
    (rv : Bytes → Option (V × Bytes))
    (m : List (Bytes × V)) (payload r : Bytes)
    (hgood : ∀ p ∈ m, ∀ enc r2, wv p.2 = some enc → rv (enc ++ r2) = some (p.2, r2))
    (hkeys : ∀ p ∈ m, (p.1 : Bytes).length < 2 ^ 32 - 1)
    (henc : writeMapPairs wv m = some payload) :
    readMapPairs rv m.length (payload ++ r) = some (m, r) := by
  induction m generalizing payload r with
  | nil =>
    simp only [writeMapPairs, Option.some.injEq] at henc
    subst henc
    simp [readMapPairs]
  | cons p rest ih =>
    obtain ⟨k, v⟩ := p
    simp only [writeMapPairs, Option.bind_eq_bind, Option.bind_eq_some,
      Option.some.injEq] at henc
    obtain ⟨kb, hkb, vb, hvb, rb, hrb, henc⟩ := henc
    subst henc
    simp only [List.length_cons, readMapPairs, Option.bind_eq_bind, List.append_assoc]
    rw [readString_writeSymbol k kb _ hkb]
    simp only [Option.some_bind]
    rw [hgood (k, v) (List.mem_cons_self _ _) vb _ hvb]
    simp only [Option.some_bind]
    rw [ih rb r (fun q hq => hgood q (List.mem_cons_of_mem _ hq))
      (fun q hq => hkeys q (List.mem_cons_of_mem _ hq)) hrb]
    rfl

/-- Round-trip for a full encoded map: header then pairs. -/
theorem readMap_roundtrip {V : Type} (wv : V → Option Bytes)
    (rv : Bytes → Option (V × Bytes))
    (m : List (Bytes × V)) (enc r : Bytes)
    (hgood : ∀ p ∈ m, ∀ enc2 r2, wv p.2 = some enc2 → rv (enc2 ++ r2) = some (p.2, r2))
    (hkeys : ∀ p ∈ m, (p.1 : Bytes).length < 2 ^ 32 - 1)
    (henc : writeMap wv m = some enc) :
    (readMapHeader (enc ++ r)).bind
        (fun p => readMapPairs rv ((p.1 + 1) / 2) p.2) = some (m, r) := by
  simp only [writeMap] at henc
  by_cases hlen : 2 ^ 32 ≤ 2 * m.length
  · rw [if_pos hlen] at henc
    exact Option.noConfusion henc
  · rw [if_neg hlen] at henc
    rcases hmp : writeMapPairs wv m with _ | payload
    · rw [hmp] at henc
      exact Option.noConfusion henc
    · rw [hmp] at henc
      simp only [Option.some_bind, Option.some.injEq] at henc
      subst henc
      simp only [List.cons_append, List.append_assoc, readMapHeader,
        Option.bind_eq_bind]
      rw [readU32_beBytes4 (payload.length + 4)]
      simp only [Option.some_bind]
      rw [readU32_beBytes4_lt (2 * m.length) _ (by omega)]
      simp only [Option.some_bind]
      rw [if_pos (by
        simp only [List.length_append, beBytes4_length]
        exact le_trans (Nat.mod_le _ _) (by omega))]
      simp only [Option.some_bind]
      have h2 : (2 * m.length + 1) / 2 = m.length := by omega
      rw [h2]
      exact writeMapPairs_roundtrip wv rv m payload r hgood hkeys hmp

/-! ## Arrays -/

/-- Modelled from the spec: the array header.  `array8` when the payload
(count byte, element constructor and element data) fits in a one-byte
size, `array32` otherwise.  `paySize` is the total size of the element
data; the recorded size additionally counts the count field and the
element constructor (2 bytes in the 8-bit form, 5 in the 32-bit form). -/
def writeArrayData (count paySize code : Nat) : Bytes :=
  if paySize + 2 ≤ 255 then [0xe0, paySize + 2, count % 256, code]
  else 0xf0 :: (beBytes4 (paySize + 5) ++ (beBytes4 count ++ [code]))

/-- Modelled from the spec: `writeArrayHeader` for fixed-width element
types — the payload size is `count * typeSize`. -/
def writeArrayHeader (count typeSize code : Nat) : Bytes :=
  writeArrayData count (count * typeSize) code

/-- Modelled from the spec: `writeVariableArrayHeader` for
variable-width element types — every element additionally carries a
length prefix (1 byte in the 8-bit forms, 4 bytes in the 32-bit forms). -/
def writeVariableArrayHeader (count sizeTotal code : Nat) : Bytes :=
  writeArrayData count
    (sizeTotal + count * (if code = 0xb1 ∨ code = 0xb3 ∨ code = 0xb0 then 4 else 1)) code

/-- Modelled from the spec: `readArrayHeader` — accepts `array8` and
`array32`, checks the recorded size against the remaining buffer, and
returns the element count.  The element constructor is left in the
buffer for the caller's `readType`. -/
def readArrayHeader (bs : Bytes) : Option (Nat × Bytes) :=
  match bs with
  | 0xe0 :: size :: count :: r =>
    if size ≤ r.length + 1 then some (count, r) else none
  | 0xf0 :: r =>
    (readU32 r).bind fun ps =>
      (readU32 ps.2).bind fun pc =>
        if ps.1 ≤ ps.2.length then some (pc.1, pc.2) else none
  | _ => none

theorem readArrayHeader_writeArrayData (count paySize code : Nat)
    (payload r : Bytes) (hlen : payload.length = paySize)
    (hcount : count ≤ paySize ∨ count = 0) (hc32 : count < 2 ^ 32) :
    readArrayHeader (writeArrayData count paySize code ++ (payload ++ r)) =
      some (count, code :: (payload ++ r)) := by
  by_cases h8 : paySize + 2 ≤ 255
  · simp only [writeArrayData, if_pos h8, List.cons_append, List.nil_append,
      readArrayHeader]
    rw [Nat.mod_eq_of_lt (by omega)]
    rw [if_pos (by simp only [List.length_cons, List.length_append]; omega)]
  · simp only [writeArrayData, if_neg h8, List.cons_append, List.nil_append,
      List.append_assoc, readArrayHeader, Option.bind_eq_bind]
    rw [readU32_beBytes4 (paySize + 5)]
    simp only [Option.some_bind]
    rw [readU32_beBytes4_lt count _ hc32]
    simp only [Option.some_bind]
    rw [if_pos (by
      simp only [List.length_append, beBytes4_length, List.length_cons]
      exact le_trans (Nat.mod_le _ _) (by omega))]

/-- `arrayUint32.marshal` translated from the sources: scans for any
element above 255; uses the one-byte `smalluint` element form when all
elements fit a byte, the four-byte `uint` form otherwise. -/
def arrayUint32.marshal (a : List Nat) : Bytes :=
  if a.all (fun n => decide (n ≤ 255)) then
    writeArrayHeader a.length 1 0x52 ++ a.map (fun n => n % 256)
  else
    writeArrayHeader a.length 4 0x70 ++ (a.map beBytes4).flatten

/-- Big-endian 4-byte chunks, as read by the `typeCodeUint` branch of
`arrayUint32.unmarshal`. -/
def beChunks4 : Bytes → List Nat
  | b0 :: b1 :: b2 :: b3 :: r =>
      (((b0 * 256 + b1) * 256 + b2) * 256 + b3) :: beChunks4 r
  | _ => []

/-- `arrayUint32.unmarshal` translated from the sources: reads the array
header, then dispatches on the element constructor — `uint0` yields
zeroes, `smalluint` single bytes, `uint` big-endian 4-byte groups. -/
def arrayUint32.unmarshal (bs : Bytes) : Option (List Nat × Bytes) :=
  (readArrayHeader bs).bind fun p =>
    match p.2 with
    | [] => none
    | c :: r =>
      if c = 0x43 then some (List.replicate p.1 0, r)
      else if c = 0x52 then
        (readN p.1 r).bind fun q => some (q.1, q.2)
      else if c = 0x70 then
        (readN (p.1 * 4) r).bind fun q => some (beChunks4 q.1, q.2)
      else none

theorem beChunks4_flatten (a : List Nat) (h : ∀ x ∈ a, x < 2 ^ 32) :
    beChunks4 (a.map beBytes4).flatten = a := by
  induction a with
  | nil => rfl
  | cons x xs ih =>
    simp only [List.map_cons, List.flatten_cons, beBytes4, List.cons_append,
      List.nil_append, beChunks4, List.cons.injEq]
    refine ⟨?_, ih (fun y hy => h y (List.mem_cons_of_mem _ hy))⟩
    have hx := h x (List.mem_cons_self x xs)
    omega

/-- Round-trip of `arrayUint32`: unmarshal inverts marshal for every
`uint32` array whose length is representable. -/
theorem arrayUint32_roundtrip (a : List Nat) (r : Bytes)
    (helem : ∀ x ∈ a, x < 2 ^ 32) (hlen : a.length < 2 ^ 32) :
    arrayUint32.unmarshal (arrayUint32.marshal a ++ r) = some (a, r) := by
  have hmap : ∀ (l : List Nat), (∀ x ∈ l, x ≤ 255) → (l.map fun n => n % 256) = l := by
    intro l
    induction l with
    | nil => intro _; rfl
    | cons x xs ih =>
      intro hl
      simp only [List.map_cons, List.cons.injEq]
      refine ⟨Nat.mod_eq_of_lt ?_, ih (fun y hy => hl y (List.mem_cons_of_mem _ hy))⟩
      have := hl x (List.mem_cons_self x xs)
      omega
  have hplen : ∀ (l : List Nat), ((l.map beBytes4).flatten).length = l.length * 4 := by
    intro l
    induction l with
    | nil => rfl
    | cons x xs ih =>
      simp only [List.map_cons, List.flatten_cons, List.length_append,
        beBytes4_length, ih, List.length_cons]
      ring
  by_cases hsmall : a.all (fun n => decide (n ≤ 255))
  · have hle : ∀ x ∈ a, x ≤ 255 := by
      intro x hx
      simpa using List.all_eq_true.mp hsmall x hx
    simp only [arrayUint32.marshal, if_pos hsmall, writeArrayHeader, Nat.mul_one,
      hmap a hle, List.append_assoc]
    simp only [arrayUint32.unmarshal]
    rw [readArrayHeader_writeArrayData a.length a.length 0x52 a r rfl
      (Or.inl le_rfl) hlen]
    simp only [Option.bind_eq_bind, Option.some_bind]
    norm_num
    rw [readN_append a r]
  · simp only [arrayUint32.marshal, if_neg hsmall, writeArrayHeader, List.append_assoc]
    simp only [arrayUint32.unmarshal]
    rw [readArrayHeader_writeArrayData a.length (a.length * 4) 0x70
      ((a.map beBytes4).flatten) r (hplen a) (Or.inl (by omega)) hlen]
    simp only [Option.bind_eq_bind, Option.some_bind]
    norm_num
    rw [show a.length * 4 = ((a.map beBytes4).flatten).length from (hplen a).symm,
      readN_append]
    simp only [Option.some_bind]
    rw [beChunks4_flatten a helem]

/-- `arraySymbol.marshal` translated from the sources: scans elements
computing the total size and promoting to `sym32` when any element is
longer than 255 bytes; emits the shared element constructor and then a
length-prefixed body per element. -/
def arraySymbol.marshal (a : List Bytes) : Bytes :=
  (if a.any (fun e => decide (255 < e.length)) then
    writeVariableArrayHeader a.length (a.map List.length).sum 0xb3 ++
      (a.map (fun e => beBytes4 e.length ++ e)).flatten
  else
    writeVariableArrayHeader a.length (a.map List.length).sum 0xa3 ++
      (a.map (fun e => e.length % 256 :: e)).flatten)

/-- The `sym8` element loop of `arraySymbol.unmarshal`: one length byte
then the body, repeated per element. -/
def readSymElems8 : Nat → Bytes → Option (List Bytes × Bytes)
  | 0, bs => some ([], bs)
  | n + 1, bs =>
    match bs with
    | [] => none
    | size :: r =>
      (readN size r).bind fun e =>
        (readSymElems8 n e.2).bind fun es =>
          some (e.1 :: es.1, es.2)

/-- The `sym32` element loop of `arraySymbol.unmarshal`: a four-byte
length then the body, repeated per element. -/
def readSymElems32 : Nat → Bytes → Option (List Bytes × Bytes)
  | 0, bs => some ([], bs)
  | n + 1, bs =>
    (readU32 bs).bind fun sz =>
      (readN sz.1 sz.2).bind fun e =>
        (readSymElems32 n e.2).bind fun es =>
          some (e.1 :: es.1, es.2)

/-- `arraySymbol.unmarshal` translated from the sources: array header,
the `length*2 > r.Len()` sanity check (every symbol is assumed to be at
least 2 bytes on the wire), then the element constructor dispatch. -/
def arraySymbol.unmarshal (bs : Bytes) : Option (List Bytes × Bytes) :=
  (readArrayHeader bs).bind fun p =>
    if 2 * p.1 > p.2.length then none
    else
      match p.2 with
      | [] => none
      | c :: r =>
        if c = 0xa3 then readSymElems8 p.1 r
        else if c = 0xb3 then readSymElems32 p.1 r
        else none

/-- `multiSymbol.marshal` translated from the sources: delegates to the
symbol-array encoder. -/
def multiSymbol.marshal (ms : List Bytes) : Bytes := arraySymbol.marshal ms

/-- `multiSymbol.unmarshal` translated from the sources: peeks the
format code; a single symbol decodes as a one-element list, anything
else is delegated to the array decoder. -/
def multiSymbol.unmarshal (bs : Bytes) : Option (List Bytes × Bytes) :=
  match bs with
  | [] => none
  | c :: _ =>
    if c = 0xa3 ∨ c = 0xb3 then
      (readString bs).bind fun p => some ([p.1], p.2)
    else arraySymbol.unmarshal bs

theorem readSymElems8_roundtrip (a : List Bytes) (r : Bytes)
    (hle : ∀ e ∈ a, (e : Bytes).length ≤ 255) :
    readSymElems8 a.length ((a.map (fun e => e.length % 256 :: e)).flatten ++ r) =
      some (a, r) := by
  induction a generalizing r with
  | nil => simp [readSymElems8]
  | cons e es ih =>
    have hee : e.length ≤ 255 := hle e (List.mem_cons_self _ _)
    simp only [List.map_cons, List.flatten_cons, List.length_cons, List.cons_append,
      List.append_assoc, readSymElems8, Option.bind_eq_bind]
    rw [Nat.mod_eq_of_lt (by omega)]
    rw [readN_append e _]
    simp only [Option.some_bind]
    rw [ih r (fun y hy => hle y (List.mem_cons_of_mem _ hy))]
    rfl

theorem readSymElems32_roundtrip (a : List Bytes) (r : Bytes)
    (hle : ∀ e ∈ a, (e : Bytes).length < 2 ^ 32) :
    readSymElems32 a.length ((a.map (fun e => beBytes4 e.length ++ e)).flatten ++ r) =
      some (a, r) := by
  induction a generalizing r with
  | nil => simp [readSymElems32]
  | cons e es ih =>
    have hee : e.length < 2 ^ 32 := hle e (List.mem_cons_self _ _)
    simp only [List.map_cons, List.flatten_cons, List.length_cons, List.cons_append,
      List.append_assoc, readSymElems32, Option.bind_eq_bind]
    rw [readU32_beBytes4_lt e.length _ hee]
    simp only [Option.some_bind]
    rw [readN_append e _]
    simp only [Option.some_bind]
    rw [ih r (fun y hy => hle y (List.mem_cons_of_mem _ hy))]
    rfl

theorem sum_lengths_ge :
    ∀ (a : List Bytes), (∀ e ∈ a, 1 ≤ (e : Bytes).length) →
      a.length ≤ (a.map List.length).sum := by
  intro a
  induction a with
  | nil => intro _; simp
  | cons e es ih =>
    intro h
    simp only [List.length_cons, List.map_cons, List.sum_cons]
    have h1 := h e (List.mem_cons_self _ _)
    have h2 := ih (fun y hy => h y (List.mem_cons_of_mem _ hy))
    omega

theorem symPayload8_length :
    ∀ (a : List Bytes),
      ((a.map (fun e => e.length % 256 :: e)).flatten).length =
        (a.map List.length).sum + a.length := by
  intro a
  induction a with
  | nil => rfl
  | cons e es ih =>
    simp only [List.map_cons, List.flatten_cons, List.length_append,
      List.length_cons, ih, List.sum_cons]
    omega

theorem symPayload32_length :
    ∀ (a : List Bytes),
      ((a.map (fun e => beBytes4 e.length ++ e)).flatten).length =
        (a.map List.length).sum + a.length * 4 := by
  intro a
  induction a with
  | nil => rfl
  | cons e es ih =>
    simp only [List.map_cons, List.flatten_cons, List.length_append,
      beBytes4_length, List.length_cons, ih, List.sum_cons]
    omega

/-- Round-trip of `arraySymbol` (and hence `multiSymbol` in array form),
for nonempty symbols of representable length.  (Symbols of length zero
can trip the decoder's `length*2` sanity check, see the codec claim.) -/
theorem arraySymbol_roundtrip (a : List Bytes) (r : Bytes)
    (hne : ∀ e ∈ a, 1 ≤ (e : Bytes).length)
    (h32 : ∀ e ∈ a, (e : Bytes).length < 2 ^ 32)
    (hcnt : a.length < 2 ^ 32) :
    arraySymbol.unmarshal (arraySymbol.marshal a ++ r) = some (a, r) := by
  have hsum := sum_lengths_ge a hne
  by_cases hbig : a.any (fun e => decide (255 < e.length))
  · simp only [arraySymbol.marshal, if_pos hbig, writeVariableArrayHeader]
    norm_num
    simp only [arraySymbol.unmarshal, List.append_assoc]
    rw [readArrayHeader_writeArrayData a.length
      ((a.map List.length).sum + a.length * 4) 0xb3
      ((a.map (fun e => beBytes4 e.length ++ e)).flatten) r
      (symPayload32_length a) (Or.inl (by omega)) hcnt]
    simp only [Option.bind_eq_bind, Option.some_bind]
    rw [if_neg (by
      simp only [List.length_cons, List.length_append, symPayload32_length]
      omega)]
    norm_num
    exact readSymElems32_roundtrip a r h32
  · have hle : ∀ e ∈ a, (e : Bytes).length ≤ 255 := by
      intro e he
      by_contra hc
      apply hbig
      rw [List.any_eq_true]
      exact ⟨e, he, by simp; omega⟩
    simp only [arraySymbol.marshal, if_neg hbig, writeVariableArrayHeader]
    norm_num
    simp only [arrayUint32.unmarshal, arraySymbol.unmarshal, List.append_assoc]
    rw [readArrayHeader_writeArrayData a.length
      ((a.map List.length).sum + a.length) 0xa3
      ((a.map (fun e => e.length % 256 :: e)).flatten) r
      (symPayload8_length a) (Or.inl (by omega)) hcnt]
    simp only [Option.bind_eq_bind, Option.some_bind]
    rw [if_neg (by
      simp only [List.length_cons, List.length_append, symPayload8_length]
      omega)]
    norm_num
    exact readSymElems8_roundtrip a r hle

theorem multiSymbol_roundtrip (a : List Bytes) (r : Bytes)
    (hne : ∀ e ∈ a, 1 ≤ (e : Bytes).length)
    (h32 : ∀ e ∈ a, (e : Bytes).length < 2 ^ 32)
    (hcnt : a.length < 2 ^ 32) :
    multiSymbol.unmarshal (multiSymbol.marshal a ++ r) = some (a, r) := by
  have harr := arraySymbol_roundtrip a r hne h32 hcnt
  have hhead : ∃ b t, arraySymbol.marshal a = b :: t ∧ (b = 0xe0 ∨ b = 0xf0) := by
    simp only [arraySymbol.marshal, writeVariableArrayHeader, writeArrayData]
    by_cases hbig : a.any (fun e => decide (255 < e.length)) <;>
      [rw [if_pos hbig]; rw [if_neg hbig]] <;>
      split <;> split <;> simp
  obtain ⟨b, t, hbt, hb⟩ := hhead
  simp only [multiSymbol.marshal]
  rw [hbt] at harr ⊢
  simp only [List.cons_append, multiSymbol.unmarshal]
  rw [if_neg (by rcases hb with hb | hb <;> subst hb <;> norm_num)]
  simpa [hbt] using harr

/-! ## Composites

Composites are encoded as a described list (descriptor `0x00` +
small-ulong code, then a list of fields); optional trailing defaulted
fields are elided, earlier omitted fields are written as explicit nulls.
During unmarshal a null field either invokes the per-field default
callback (`handleNull`) or is skipped; fields beyond the encoded count
keep their zero values. -/

/-- A field to marshal: the `omit` flag (named `omitted` here since `omit` is a Lean keyword) (computed by the composite's
`marshal` method) and the field value's encoding. -/
structure marshalField where
  omitted : Bool
  enc : Option Bytes

/-- The number of fields that survive trailing-omitted-field elision
(`lastSetIdx + 1` in the sources). -/
def trimLen (fields : List marshalField) : Nat :=
  (fields.reverse.dropWhile (fun f => f.omitted)).length

/-- The field payload of a composite: omitted fields become explicit
nulls, others their encoding. -/
def encodeMFields : List marshalField → Option Bytes
  | [] => some []
  | f :: fs =>
    (if f.omitted then some [0x40] else f.enc).bind fun fb =>
      (encodeMFields fs).bind fun rest =>
        some (fb ++ rest)

/-- Modelled from the spec: `marshalComposite` — the `0x00` constructor,
a small-ulong descriptor, then the retained fields as a `list0` (when
all fields are elided) or `list32` (count and size prefixed), exactly as
`list.marshal` does for plain lists. -/
def marshalComposite (code : Nat) (fields : List marshalField) : Option Bytes :=
  let kept := fields.take (trimLen fields)
  if kept.isEmpty then some ([0, 0x53, code] ++ [0x45])
  else
    (encodeMFields kept).bind fun payload =>
      some ([0, 0x53, code] ++
        (0xd0 :: (beBytes4 (payload.length + 4) ++ (beBytes4 kept.length ++ payload))))

/-- A field to unmarshal: the parser writing into the partially built
composite, and the optional null callback. -/
structure unmarshalField (σ : Type) where
  parse : σ → Bytes → Option (σ × Bytes)
  handleNull : Option (σ → Option σ)

/-- The field loop of `unmarshalComposite`: a null byte consumes the
field, running `handleNull` when present; otherwise the field parser
runs. -/
def unmarshalFields {σ : Type} : List (unmarshalField σ) → σ → Bytes → Option (σ × Bytes)
  | [], st, bs => some (st, bs)
  | f :: fs, st, bs =>
    match bs with
    | [] => (f.parse st []).bind fun p => unmarshalFields fs p.1 p.2
    | b :: bs2 =>
      if b = 0x40 then
        match f.handleNull with
        | none => unmarshalFields fs st bs2
        | some g => (g st).bind fun st2 => unmarshalFields fs st2 bs2
      else (f.parse st (b :: bs2)).bind fun p => unmarshalFields fs p.1 p.2

/-- Modelled from the spec: `readListHeader` — `list0`, `list8` or
`list32`; checks the recorded size against the remaining buffer and
returns the element count. -/
def readListHeader (bs : Bytes) : Option (Nat × Bytes) :=
  match bs with
  | 0x45 :: r => some (0, r)
  | 0xc0 :: size :: count :: r =>
    if size ≤ r.length + 1 then some (count, r) else none
  | 0xd0 :: r =>
    (readU32 r).bind fun ps =>
      (readU32 ps.2).bind fun pc =>
        if ps.1 ≤ ps.2.length then some (pc.1, pc.2) else none
  | _ => none

/-- Modelled from the spec: `readCompositeHeader` — the `0x00`
constructor, a ulong descriptor (truncated to its low byte, as the Go
code converts it to the one-byte `amqpType`), then the list header. -/
def readCompositeHeader (bs : Bytes) : Option (Nat × Nat × Bytes) :=
  match bs with
  | [] => none
  | b :: r =>
    if b = 0 then
      (readUlong r).bind fun d =>
        (readListHeader d.2).bind fun c =>
          some (d.1 % 256, c.1, c.2)
    else none

/-- Modelled from the spec: `unmarshalComposite` — reads the composite
header, verifies the descriptor, rejects field counts beyond the field
table, then runs the field loop on the retained prefix of the table. -/
def unmarshalComposite {σ : Type} (code : Nat) (fields : List (unmarshalField σ))
    (st : σ) (bs : Bytes) : Option (σ × Bytes) :=
  (readCompositeHeader bs).bind fun h =>
    if h.1 ≠ code then none
    else if fields.length < h.2.1 then none
    else unmarshalFields (fields.take h.2.1) st h.2.2

/-! ### The generic field round-trip lemma -/

/-- A combined marshal/unmarshal field description together with its
semantic effect `tgt` on the composite being rebuilt. -/
structure fieldSpec (σ : Type) where
  mf : marshalField
  uf : unmarshalField σ
  tgt : σ → σ

/-- `Ok f`: the marshal side and the unmarshal side of a field agree.
An omitted field must either have no null callback and no effect, or a
callback realizing the effect; a present field's encoding must be
nonempty, not look like a null, and parse back to exactly the effect. -/
def fieldSpec.Ok {σ : Type} (f : fieldSpec σ) : Prop :=
  if f.mf.omitted then
    match f.uf.handleNull with
    | none => f.tgt = id
    | some g => ∀ st, g st = some (f.tgt st)
  else
    ∃ enc, f.mf.enc = some enc ∧ enc ≠ [] ∧ enc.head? ≠ some 0x40 ∧
      ∀ st bs, f.uf.parse st (enc ++ bs) = some (f.tgt st, bs)

/-- Parsing the encoded fields of a spec list applies all the field
effects in order. -/
theorem unmarshalFields_encodeMFields {σ : Type} (L : List (fieldSpec σ))
    (hok : ∀ f ∈ L, f.Ok) (st : σ) (payload r : Bytes)
    (henc : encodeMFields (L.map fieldSpec.mf) = some payload) :
    unmarshalFields (L.map fieldSpec.uf) st (payload ++ r) =
      some (L.foldl (fun s f => f.tgt s) st, r) := by
  induction L generalizing st payload with
  | nil =>
    simp only [List.map_nil, encodeMFields, Option.some.injEq] at henc
    subst henc
    simp [unmarshalFields]
  | cons f fs ih =>
    have hfok := hok f (List.mem_cons_self _ _)
    have hrest : ∀ g ∈ fs, fieldSpec.Ok g := fun g hg => hok g (List.mem_cons_of_mem _ hg)
    simp only [List.map_cons, encodeMFields, Option.bind_eq_bind, Option.bind_eq_some,
      Option.some.injEq] at henc
    obtain ⟨fb, hfb, rest, hrestenc, henc⟩ := henc
    subst henc
    by_cases homit : f.mf.omitted
    · rw [if_pos homit] at hfb
      cases hfb
      simp only [fieldSpec.Ok, if_pos homit] at hfok
      rcases hnull : f.uf.handleNull with _ | g
      · rw [hnull] at hfok
        have hid : f.tgt = id := hfok
        have ihh := ih hrest st rest hrestenc
        simp [unmarshalFields, hnull, hid, List.foldl_cons, ihh]
      · rw [hnull] at hfok
        have hg : ∀ s, g s = some (f.tgt s) := hfok
        have ihh := ih hrest (f.tgt st) rest hrestenc
        simp [unmarshalFields, hnull, hg, List.foldl_cons, ihh]
    · rw [if_neg homit] at hfb
      simp only [fieldSpec.Ok, if_neg homit] at hfok
      obtain ⟨enc2, hmf, hne2, hhead, hparse⟩ := hfok
      rw [hmf] at hfb
      have hfb2 : fb = enc2 := by
        injection hfb with h
        exact h.symm
      subst hfb2
      rcases fb with _ | ⟨b, ebs⟩
      · exact absurd rfl hne2
      · have hb : b ≠ 0x40 := by
          intro hbe
          exact hhead (by rw [hbe]; rfl)
        have hp := hparse st (rest ++ r)
        have ihh := ih hrest (f.tgt st) rest hrestenc
        simp only [List.cons_append, List.append_assoc] at hp ⊢
        simp [unmarshalFields, hb, hp, ihh, List.foldl_cons]

/-! ## The `source` composite (descriptor 0x28) -/

/-- The four expiry-policy symbols, as byte strings
(`link-detach`, `session-end`, `connection-close`, `never`). -/
def expiryLinkDetach : Bytes :=
  [108, 105, 110, 107, 45, 100, 101, 116, 97, 99, 104]

def expirySessionEnd : Bytes :=
  [115, 101, 115, 115, 105, 111, 110, 45, 101, 110, 100]

def expiryConnectionClose : Bytes :=
  [99, 111, 110, 110, 101, 99, 116, 105, 111, 110, 45, 99, 108, 111, 115, 101]

def expiryNever : Bytes :=
  [110, 101, 118, 101, 114]

/-- `ExpiryPolicy.validate` translated from the sources: only the four
standard policies are accepted. -/
def validateExpiryPolicy (e : Bytes) : Bool :=
  e == expiryLinkDetach || e == expirySessionEnd ||
    e == expiryConnectionClose || e == expiryNever

/-- The `source` composite translated from the sources.  Strings and
symbols are byte lists; `Durable` and `Timeout` are `uint32`; the two
maps are association lists; the dynamically typed `DefaultOutcome`
(`interface{}` in Go) is an `AVal`, with `anull` playing the Go `nil`. -/
structure source where
  Address : Bytes
  Durable : Nat
  ExpiryPolicy : Bytes
  Timeout : Nat
  Dynamic : Bool
  DynamicNodeProperties : List (Bytes × AVal)
  DistributionMode : Bytes
  Filter : List (Bytes × describedType)
  DefaultOutcome : AVal
  Outcomes : List Bytes
  Capabilities : List Bytes
deriving DecidableEq

/-- The zero value of `source` (a freshly allocated Go struct). -/
def source.zero : source :=
  ⟨[], 0, [], 0, false, [], [], [], .anull, [], []⟩

/-- The marshal field table of `source.marshal`, translated from the
sources: each entry is the omit condition and the field encoding. -/
def source.mFields (s : source) : List marshalField :=
  [ ⟨s.Address == [], writeString s.Address⟩,
    ⟨s.Durable == 0, some (writeUint32 s.Durable)⟩,
    ⟨s.ExpiryPolicy == [] || s.ExpiryPolicy == expirySessionEnd,
      writeSymbol s.ExpiryPolicy⟩,
    ⟨s.Timeout == 0, some (writeUint32 s.Timeout)⟩,
    ⟨!s.Dynamic, some (writeBool s.Dynamic)⟩,
    ⟨s.DynamicNodeProperties.isEmpty, writeMap marshalAny s.DynamicNodeProperties⟩,
    ⟨s.DistributionMode == [], writeSymbol s.DistributionMode⟩,
    ⟨s.Filter.isEmpty, writeMap describedType.marshal s.Filter⟩,
    ⟨s.DefaultOutcome == .anull, marshalAny s.DefaultOutcome⟩,
    ⟨s.Outcomes.isEmpty, some (multiSymbol.marshal s.Outcomes)⟩,
    ⟨s.Capabilities.isEmpty, some (multiSymbol.marshal s.Capabilities)⟩ ]

/-- `source.marshal` translated from the sources: the composite with
descriptor `0x28` over the field table. -/
def source.marshal (s : source) : Option Bytes :=
  marshalComposite 0x28 (source.mFields s)

/-- The unmarshal field table of `source.unmarshal`, translated from the
sources.  `ExpiryPolicy` is the only field with a null callback, which
restores the `session-end` default; its parser additionally validates
the policy. -/
def source.uFields : List (unmarshalField source) :=
  [ ⟨fun st bs => (readString bs).bind fun p => some ({st with Address := p.1}, p.2),
      none⟩,
    ⟨fun st bs => (readUint bs).bind fun p => some ({st with Durable := p.1}, p.2),
      none⟩,
    ⟨fun st bs => (readString bs).bind fun p =>
        if validateExpiryPolicy p.1 then some ({st with ExpiryPolicy := p.1}, p.2)
        else none,
      some (fun st => some {st with ExpiryPolicy := expirySessionEnd})⟩,
    ⟨fun st bs => (readUint bs).bind fun p => some ({st with Timeout := p.1}, p.2),
      none⟩,
    ⟨fun st bs => (readBool bs).bind fun p => some ({st with Dynamic := p.1}, p.2),
      none⟩,
    ⟨fun st bs => ((readMapHeader bs).bind fun h =>
        readMapPairs readAny ((h.1 + 1) / 2) h.2).bind fun p =>
          some ({st with DynamicNodeProperties := p.1}, p.2),
      none⟩,
    ⟨fun st bs => (readString bs).bind fun p =>
        some ({st with DistributionMode := p.1}, p.2),
      none⟩,
    ⟨fun st bs => ((readMapHeader bs).bind fun h =>
        readMapPairs describedType.unmarshal ((h.1 + 1) / 2) h.2).bind fun p =>
          some ({st with Filter := p.1}, p.2),
      none⟩,
    ⟨fun st bs => (readAny bs).bind fun p => some ({st with DefaultOutcome := p.1}, p.2),
      none⟩,
    ⟨fun st bs => (multiSymbol.unmarshal bs).bind fun p =>
        some ({st with Outcomes := p.1}, p.2),
      none⟩,
    ⟨fun st bs => (multiSymbol.unmarshal bs).bind fun p =>
        some ({st with Capabilities := p.1}, p.2),
      none⟩ ]

/-- `source.unmarshal` translated from the sources: the composite with
descriptor `0x28` over the unmarshal field table, starting from the
zero value. -/
def source.unmarshal (bs : Bytes) : Option (source × Bytes) :=
  unmarshalComposite 0x28 source.uFields source.zero bs

/-- The first byte of an encoded symbol array is an array format code. -/
theorem arraySymbol_marshal_head (a : List Bytes) :
    ∃ t, (arraySymbol.marshal a = 0xe0 :: t ∨ arraySymbol.marshal a = 0xf0 :: t) := by
  simp only [arraySymbol.marshal, writeVariableArrayHeader, writeArrayData]
  by_cases hbig : a.any (fun e => decide (255 < e.length)) <;>
    [rw [if_pos hbig]; rw [if_neg hbig]] <;> split <;> split <;> simp

/-- All the fields after `Timeout` hold their Go zero values (so that
every trailing field from `Timeout` on is elided by `source.marshal`). -/
def source.laterDefault (s : source) : Bool :=
  (s.Timeout == 0) && (!s.Dynamic) && s.DynamicNodeProperties.isEmpty &&
    (s.DistributionMode == []) && s.Filter.isEmpty &&
    (s.DefaultOutcome == .anull) && s.Outcomes.isEmpty && s.Capabilities.isEmpty

/-- Well-formedness of a `source` value for the round-trip claim:
numeric fields fit `uint32`, byte strings fit their length prefixes,
maps have a representable element count and well-formed dynamic values,
multi-symbol entries are nonempty (see `arraySymbol.unmarshal`'s sanity
check) and of representable length, and the `ExpiryPolicy` field avoids
the two defaulting pitfalls: an unset (empty) policy must not be
followed by a set field (else unmarshal restores `session-end`), a
`session-end` policy must be followed by one (else unmarshal leaves the
empty string), and a set policy must be one of the four valid symbols
(else unmarshal rejects it). -/
def source.wfb (s : source) : Bool :=
  decide (s.Address.length < 2 ^ 32 - 1) &&
  decide (s.Durable < 2 ^ 32) &&
  (if s.ExpiryPolicy == [] then s.laterDefault
   else if s.ExpiryPolicy == expirySessionEnd then !s.laterDefault
   else validateExpiryPolicy s.ExpiryPolicy) &&
  decide (s.Timeout < 2 ^ 32) &&
  decide (2 * s.DynamicNodeProperties.length < 2 ^ 32) &&
  s.DynamicNodeProperties.all
    (fun p => decide (p.1.length < 2 ^ 32 - 1) && p.2.wfb) &&
  decide (s.DistributionMode.length < 2 ^ 32 - 1) &&
  decide (2 * s.Filter.length < 2 ^ 32) &&
  s.Filter.all (fun p => decide (p.1.length < 2 ^ 32 - 1) && p.2.wfb) &&
  s.DefaultOutcome.wfb &&
  decide (s.Outcomes.length < 2 ^ 32) &&
  s.Outcomes.all (fun e => decide (1 ≤ e.length) && decide (e.length < 2 ^ 32)) &&
  decide (s.Capabilities.length < 2 ^ 32) &&
  s.Capabilities.all (fun e => decide (1 ≤ e.length) && decide (e.length < 2 ^ 32))

/-- The combined field specifications of `source`: the marshal entry,
the unmarshal entry, and the semantic effect of the field on the value
being rebuilt during a round trip of `s`. -/
def source.specs (s : source) : List (fieldSpec source) :=
  [ ⟨⟨s.Address == [], writeString s.Address⟩,
      ⟨fun st bs => (readString bs).bind fun p => some ({st with Address := p.1}, p.2),
        none⟩,
      fun st => {st with Address := if s.Address == [] then st.Address else s.Address}⟩,
    ⟨⟨s.Durable == 0, some (writeUint32 s.Durable)⟩,
      ⟨fun st bs => (readUint bs).bind fun p => some ({st with Durable := p.1}, p.2),
        none⟩,
      fun st => {st with Durable := if s.Durable == 0 then st.Durable else s.Durable}⟩,
    ⟨⟨s.ExpiryPolicy == [] || s.ExpiryPolicy == expirySessionEnd,
        writeSymbol s.ExpiryPolicy⟩,
      ⟨fun st bs => (readString bs).bind fun p =>
          if validateExpiryPolicy p.1 then some ({st with ExpiryPolicy := p.1}, p.2)
          else none,
        some (fun st => some {st with ExpiryPolicy := expirySessionEnd})⟩,
      fun st => {st with ExpiryPolicy :=
        if s.ExpiryPolicy == [] || s.ExpiryPolicy == expirySessionEnd then
          expirySessionEnd
        else s.ExpiryPolicy}⟩,
    ⟨⟨s.Timeout == 0, some (writeUint32 s.Timeout)⟩,
      ⟨fun st bs => (readUint bs).bind fun p => some ({st with Timeout := p.1}, p.2),
        none⟩,
      fun st => {st with Timeout := if s.Timeout == 0 then st.Timeout else s.Timeout}⟩,
    ⟨⟨!s.Dynamic, some (writeBool s.Dynamic)⟩,
      ⟨fun st bs => (readBool bs).bind fun p => some ({st with Dynamic := p.1}, p.2),
        none⟩,
      fun st => {st with Dynamic := if !s.Dynamic then st.Dynamic else s.Dynamic}⟩,
    ⟨⟨s.DynamicNodeProperties.isEmpty, writeMap marshalAny s.DynamicNodeProperties⟩,
      ⟨fun st bs => ((readMapHeader bs).bind fun h =>
          readMapPairs readAny ((h.1 + 1) / 2) h.2).bind fun p =>
            some ({st with DynamicNodeProperties := p.1}, p.2),
        none⟩,
      fun st => {st with DynamicNodeProperties :=
        if s.DynamicNodeProperties.isEmpty then st.DynamicNodeProperties
        else s.DynamicNodeProperties}⟩,
    ⟨⟨s.DistributionMode == [], writeSymbol s.DistributionMode⟩,
      ⟨fun st bs => (readString bs).bind fun p =>
          some ({st with DistributionMode := p.1}, p.2),
        none⟩,
      fun st => {st with DistributionMode :=
        if s.DistributionMode == [] then st.DistributionMode
        else s.DistributionMode}⟩,
    ⟨⟨s.Filter.isEmpty, writeMap describedType.marshal s.Filter⟩,
      ⟨fun st bs => ((readMapHeader bs).bind fun h =>
          readMapPairs describedType.unmarshal ((h.1 + 1) / 2) h.2).bind fun p =>
            some ({st with Filter := p.1}, p.2),
        none⟩,
      fun st => {st with Filter :=
        if s.Filter.isEmpty then st.Filter else s.Filter}⟩,
    ⟨⟨s.DefaultOutcome == .anull, marshalAny s.DefaultOutcome⟩,
      ⟨fun st bs => (readAny bs).bind fun p =>
          some ({st with DefaultOutcome := p.1}, p.2),
        none⟩,
      fun st => {st with DefaultOutcome :=
        if s.DefaultOutcome == .anull then st.DefaultOutcome
        else s.DefaultOutcome}⟩,
    ⟨⟨s.Outcomes.isEmpty, some (multiSymbol.marshal s.Outcomes)⟩,
      ⟨fun st bs => (multiSymbol.unmarshal bs).bind fun p =>
          some ({st with Outcomes := p.1}, p.2),
        none⟩,
      fun st => {st with Outcomes :=
        if s.Outcomes.isEmpty then st.Outcomes else s.Outcomes}⟩,
    ⟨⟨s.Capabilities.isEmpty, some (multiSymbol.marshal s.Capabilities)⟩,
      ⟨fun st bs => (multiSymbol.unmarshal bs).bind fun p =>
          some ({st with Capabilities := p.1}, p.2),
        none⟩,
      fun st => {st with Capabilities :=
        if s.Capabilities.isEmpty then st.Capabilities else s.Capabilities}⟩ ]

theorem source_specs_mf (s : source) :
    (source.specs s).map fieldSpec.mf = source.mFields s := rfl

theorem source_specs_uf (s : source) :
    (source.specs s).map fieldSpec.uf = source.uFields := rfl

/-- A spec list whose fields are all `Ok` always encodes. -/
theorem encodeMFields_isSome {σ : Type} (L : List (fieldSpec σ))
    (hok : ∀ f ∈ L, f.Ok) :
    ∃ p, encodeMFields (L.map fieldSpec.mf) = some p := by
  induction L with
  | nil => exact ⟨[], rfl⟩
  | cons f fs ih =>
    obtain ⟨p, hp⟩ := ih (fun g hg => hok g (List.mem_cons_of_mem _ hg))
    have hfok := hok f (List.mem_cons_self _ _)
    by_cases homit : f.mf.omitted
    · refine ⟨[0x40] ++ p, ?_⟩
      simp [encodeMFields, homit, hp]
    · simp only [fieldSpec.Ok, if_neg homit] at hfok
      obtain ⟨enc, hmf, -, -, -⟩ := hfok
      refine ⟨enc ++ p, ?_⟩
      simp [encodeMFields, homit, hp, hmf]

theorem writeString_facts (s : Bytes) (h : s.length < 2 ^ 32 - 1) :
    ∃ enc, writeString s = some enc ∧ enc ≠ [] ∧ enc.head? ≠ some 0x40 := by
  by_cases h8 : s.length < 256
  · exact ⟨_, by rw [writeString, if_pos h8], by simp, by simp⟩
  · exact ⟨_, by rw [writeString, if_neg h8, if_pos h], by simp, by simp⟩

theorem writeSymbol_facts (s : Bytes) (h : s.length < 2 ^ 32 - 1) :
    ∃ enc, writeSymbol s = some enc ∧ enc ≠ [] ∧ enc.head? ≠ some 0x40 := by
  by_cases h8 : s.length < 256
  · exact ⟨_, by rw [writeSymbol, if_pos h8], by simp, by simp⟩
  · exact ⟨_, by rw [writeSymbol, if_neg h8, if_pos h], by simp, by simp⟩

theorem writeUint32_facts (n : Nat) :
    writeUint32 n ≠ [] ∧ (writeUint32 n).head? ≠ some 0x40 := by
  by_cases h0 : n = 0
  · simp [writeUint32, h0]
  · by_cases hs : n < 256 <;> simp [writeUint32, h0, hs]

theorem writeBool_facts (b : Bool) :
    writeBool b ≠ [] ∧ (writeBool b).head? ≠ some 0x40 := by
  cases b <;> simp [writeBool]

theorem writeMap_head {V : Type} (wv : V → Option Bytes) (m : List (Bytes × V))
    (enc : Bytes) (h : writeMap wv m = some enc) : ∃ t, enc = 0xd1 :: t := by
  rw [writeMap] at h
  by_cases hc : 2 ^ 32 ≤ 2 * m.length
  · rw [if_pos hc] at h
    exact Option.noConfusion h
  · rw [if_neg hc] at h
    rcases hp : writeMapPairs wv m with _ | payload
    · rw [hp] at h
      exact Option.noConfusion h
    · rw [hp] at h
      simp only [Option.some_bind, Option.some.injEq] at h
      exact ⟨_, h.symm⟩

theorem writeMap_isSome {V : Type} (wv : V → Option Bytes) (m : List (Bytes × V))
    (hlen : 2 * m.length < 2 ^ 32)
    (hk : ∀ p ∈ m, (p.1 : Bytes).length < 2 ^ 32 - 1)
    (hv : ∀ p ∈ m, ∃ e, wv p.2 = some e) :
    ∃ enc, writeMap wv m = some enc := by
  have hpairs : ∃ p, writeMapPairs wv m = some p := by
    clear hlen
    induction m with
    | nil => exact ⟨[], rfl⟩
    | cons q rest ih =>
      obtain ⟨p, hp⟩ := ih (fun q2 hq2 => hk q2 (List.mem_cons_of_mem _ hq2))
        (fun q2 hq2 => hv q2 (List.mem_cons_of_mem _ hq2))
      obtain ⟨e, he⟩ := hv q (List.mem_cons_self _ _)
      obtain ⟨k, v⟩ := q
      have hk1 : k.length < 2 ^ 32 - 1 := hk (k, v) (List.mem_cons_self _ _)
      by_cases h8 : k.length < 256
      · exact ⟨(0xa3 :: k.length :: k) ++ (e ++ p),
          by simp [writeMapPairs, writeSymbol, h8, he, hp]⟩
      · exact ⟨(0xb3 :: (beBytes4 k.length ++ k)) ++ (e ++ p),
          by simp [writeMapPairs, writeSymbol, h8, show k.length < 4294967295 by omega,
            he, hp]⟩
  obtain ⟨p, hp⟩ := hpairs
  exact ⟨_, by rw [writeMap, if_neg (by omega), hp]; rfl⟩

theorem validateExpiryPolicy_length (e : Bytes) (h : validateExpiryPolicy e = true) :
    e.length < 2 ^ 32 - 1 := by
  simp only [validateExpiryPolicy, Bool.or_eq_true, beq_iff_eq] at h
  rcases h with ((h | h) | h) | h <;> subst h <;> decide

theorem marshalAny_isSome (v : AVal) (hwf : v.wfb = true) :
    ∃ e, marshalAny v = some e := by
  cases v with
  | anull => exact ⟨_, rfl⟩
  | abool b => exact ⟨_, rfl⟩
  | auint32 n => exact ⟨_, rfl⟩
  | aulong n => exact ⟨_, rfl⟩
  | astr s =>
    simp only [AVal.wfb, decide_eq_true_eq] at hwf
    obtain ⟨e, he, -, -⟩ := writeString_facts s hwf
    exact ⟨e, he⟩
  | asym s =>
    simp only [AVal.wfb, decide_eq_true_eq] at hwf
    obtain ⟨e, he, -, -⟩ := writeSymbol_facts s hwf
    exact ⟨e, he⟩
  | abin s =>
    simp only [AVal.wfb, decide_eq_true_eq] at hwf
    by_cases h8 : s.length < 256
    · exact ⟨_, by rw [marshalAny, writeBinary, if_pos h8]⟩
    · exact ⟨_, by rw [marshalAny, writeBinary, if_neg h8, if_pos hwf]⟩

theorem describedType_marshal_isSome (t : describedType) (hwf : t.wfb = true) :
    ∃ e, describedType.marshal t = some e := by
  simp only [describedType.wfb, Bool.and_eq_true] at hwf
  obtain ⟨d, hd⟩ := marshalAny_isSome t.descriptor hwf.1
  obtain ⟨v, hv⟩ := marshalAny_isSome t.value hwf.2
  exact ⟨_, by rw [describedType.marshal, hd, hv]; rfl⟩

/-- Every field of `source.specs` satisfies the round-trip contract for
a well-formed `source`. -/
theorem source_specs_ok (s : source) (hwf : source.wfb s = true) :
    ∀ f ∈ source.specs s, f.Ok := by
  simp only [source.wfb, Bool.and_eq_true, decide_eq_true_eq] at hwf
  have hCall := hwf.2
  have hClen := hwf.1.2
  have hOall := hwf.1.1.2
  have hOlen := hwf.1.1.1.2
  have hDO := hwf.1.1.1.1.2
  have hFall := hwf.1.1.1.1.1.2
  have hFlen := hwf.1.1.1.1.1.1.2
  have hDM := hwf.1.1.1.1.1.1.1.2
  have hDNPall := hwf.1.1.1.1.1.1.1.1.2
  have hDNPlen := hwf.1.1.1.1.1.1.1.1.1.2
  have hTim := hwf.1.1.1.1.1.1.1.1.1.1.2
  have hEP := hwf.1.1.1.1.1.1.1.1.1.1.1.2
  have hDur := hwf.1.1.1.1.1.1.1.1.1.1.1.1.2
  have hAddr := hwf.1.1.1.1.1.1.1.1.1.1.1.1.1
  clear hwf
  intro f hf
  simp only [source.specs, List.mem_cons, List.not_mem_nil, or_false] at hf
  rcases hf with hf | hf | hf | hf | hf | hf | hf | hf | hf | hf | hf <;> subst hf <;>
    simp only [fieldSpec.Ok]
  · -- Address
    by_cases hflag : (s.Address == ([] : Bytes)) = true
    · rw [if_pos hflag]
      exact funext fun st => by rw [if_pos hflag]; rfl
    · rw [if_neg hflag]
      obtain ⟨enc, he, hne, hh⟩ := writeString_facts s.Address hAddr
      refine ⟨enc, he, hne, hh, fun st bs => ?_⟩
      simp only [readString_writeString s.Address enc bs he, Option.some_bind,
        Option.bind_eq_bind]
      rw [if_neg hflag]
  · -- Durable
    by_cases hflag : (s.Durable == 0) = true
    · rw [if_pos hflag]
      exact funext fun st => by rw [if_pos hflag]; rfl
    · rw [if_neg hflag]
      obtain ⟨hne, hh⟩ := writeUint32_facts s.Durable
      refine ⟨writeUint32 s.Durable, rfl, hne, hh, fun st bs => ?_⟩
      simp only [readUint_writeUint32 s.Durable bs hDur, Option.some_bind,
        Option.bind_eq_bind]
      rw [if_neg hflag]
  · -- ExpiryPolicy
    by_cases hflag : (s.ExpiryPolicy == [] || s.ExpiryPolicy == expirySessionEnd) = true
    · rw [if_pos hflag]
      exact fun st => by rw [if_pos hflag]
    · rw [if_neg hflag]
      simp only [Bool.or_eq_true] at hflag
      push_neg at hflag
      rw [if_neg hflag.1, if_neg hflag.2] at hEP
      have hlen := validateExpiryPolicy_length _ hEP
      obtain ⟨enc, he, hne, hh⟩ := writeSymbol_facts s.ExpiryPolicy hlen
      refine ⟨enc, he, hne, hh, fun st bs => ?_⟩
      simp only [readString_writeSymbol s.ExpiryPolicy enc bs he, Option.some_bind,
        Option.bind_eq_bind]
      rw [if_pos hEP]
      rw [if_neg (by simp [hflag.1, hflag.2])]
  · -- Timeout
    by_cases hflag : (s.Timeout == 0) = true
    · rw [if_pos hflag]
      exact funext fun st => by rw [if_pos hflag]; rfl
    · rw [if_neg hflag]
      obtain ⟨hne, hh⟩ := writeUint32_facts s.Timeout
      refine ⟨writeUint32 s.Timeout, rfl, hne, hh, fun st bs => ?_⟩
      simp only [readUint_writeUint32 s.Timeout bs hTim, Option.some_bind,
        Option.bind_eq_bind]
      rw [if_neg hflag]
  · -- Dynamic
    by_cases hflag : (!s.Dynamic) = true
    · rw [if_pos hflag]
      exact funext fun st => by rw [if_pos hflag]; rfl
    · rw [if_neg hflag]
      obtain ⟨hne, hh⟩ := writeBool_facts s.Dynamic
      refine ⟨writeBool s.Dynamic, rfl, hne, hh, fun st bs => ?_⟩
      simp only [readBool_writeBool s.Dynamic bs, Option.some_bind,
        Option.bind_eq_bind]
      rw [if_neg hflag]
  · -- DynamicNodeProperties
    by_cases hflag : s.DynamicNodeProperties.isEmpty = true
    · rw [if_pos hflag]
      exact funext fun st => by rw [if_pos hflag]; rfl
    · rw [if_neg hflag]
      have hall : ∀ p ∈ s.DynamicNodeProperties,
          (p.1 : Bytes).length < 2 ^ 32 - 1 ∧ AVal.wfb p.2 = true := by
        intro p hp
        have := List.all_eq_true.mp hDNPall p hp
        simp only [Bool.and_eq_true, decide_eq_true_eq] at this
        exact this
      obtain ⟨enc, he⟩ := writeMap_isSome marshalAny s.DynamicNodeProperties hDNPlen
        (fun p hp => (hall p hp).1)
        (fun p hp => marshalAny_isSome p.2 (hall p hp).2)
      obtain ⟨t, ht⟩ := writeMap_head marshalAny s.DynamicNodeProperties enc he
      refine ⟨enc, he, by simp [ht], by simp [ht], fun st bs => ?_⟩
      have hmap := readMap_roundtrip marshalAny readAny s.DynamicNodeProperties enc bs
        (fun p hp e2 r2 h2 => readAny_marshalAny p.2 e2 r2 (hall p hp).2 h2)
        (fun p hp => (hall p hp).1) he
      simp only [hmap, Option.some_bind, Option.bind_eq_bind]
      rw [if_neg hflag]
  · -- DistributionMode
    by_cases hflag : (s.DistributionMode == ([] : Bytes)) = true
    · rw [if_pos hflag]
      exact funext fun st => by rw [if_pos hflag]; rfl
    · rw [if_neg hflag]
      obtain ⟨enc, he, hne, hh⟩ := writeSymbol_facts s.DistributionMode hDM
      refine ⟨enc, he, hne, hh, fun st bs => ?_⟩
      simp only [readString_writeSymbol s.DistributionMode enc bs he, Option.some_bind,
        Option.bind_eq_bind]
      rw [if_neg hflag]
  · -- Filter
    by_cases hflag : s.Filter.isEmpty = true
    · rw [if_pos hflag]
      exact funext fun st => by rw [if_pos hflag]; rfl
    · rw [if_neg hflag]
      have hall : ∀ p ∈ s.Filter,
          (p.1 : Bytes).length < 2 ^ 32 - 1 ∧ describedType.wfb p.2 = true := by
        intro p hp
        have := List.all_eq_true.mp hFall p hp
        simp only [Bool.and_eq_true, decide_eq_true_eq] at this
        exact this
      obtain ⟨enc, he⟩ := writeMap_isSome describedType.marshal s.Filter hFlen
        (fun p hp => (hall p hp).1)
        (fun p hp => describedType_marshal_isSome p.2 (hall p hp).2)
      obtain ⟨t, ht⟩ := writeMap_head describedType.marshal s.Filter enc he
      refine ⟨enc, he, by simp [ht], by simp [ht], fun st bs => ?_⟩
      have hmap := readMap_roundtrip describedType.marshal describedType.unmarshal
        s.Filter enc bs
        (fun p hp e2 r2 h2 => describedType_roundtrip p.2 e2 r2 (hall p hp).2 h2)
        (fun p hp => (hall p hp).1) he
      simp only [hmap, Option.some_bind, Option.bind_eq_bind]
      rw [if_neg hflag]
  · -- DefaultOutcome
    by_cases hflag : (s.DefaultOutcome == AVal.anull) = true
    · rw [if_pos hflag]
      exact funext fun st => by rw [if_pos hflag]; rfl
    · rw [if_neg hflag]
      obtain ⟨enc, he⟩ := marshalAny_isSome s.DefaultOutcome hDO
      obtain ⟨hne, hh⟩ := marshalAny_head s.DefaultOutcome enc he
      refine ⟨enc, he, hne, hh (by simpa using hflag), fun st bs => ?_⟩
      simp only [readAny_marshalAny s.DefaultOutcome enc bs hDO he, Option.some_bind,
        Option.bind_eq_bind]
      rw [if_neg hflag]
  · -- Outcomes
    by_cases hflag : s.Outcomes.isEmpty = true
    · rw [if_pos hflag]
      exact funext fun st => by rw [if_pos hflag]; rfl
    · rw [if_neg hflag]
      have hall : ∀ e ∈ s.Outcomes, 1 ≤ (e : Bytes).length ∧ (e : Bytes).length < 2 ^ 32 := by
        intro e he2
        have := List.all_eq_true.mp hOall e he2
        simp only [Bool.and_eq_true, decide_eq_true_eq] at this
        exact this
      obtain ⟨t, ht⟩ := arraySymbol_marshal_head s.Outcomes
      have hne : multiSymbol.marshal s.Outcomes ≠ [] := by
        simp only [multiSymbol.marshal]
        rcases ht with ht | ht <;> simp [ht]
      have hh : (multiSymbol.marshal s.Outcomes).head? ≠ some 0x40 := by
        simp only [multiSymbol.marshal]
        rcases ht with ht | ht <;> simp [ht]
      refine ⟨multiSymbol.marshal s.Outcomes, rfl, hne, hh, fun st bs => ?_⟩
      have hms := multiSymbol_roundtrip s.Outcomes bs
        (fun e he2 => (hall e he2).1) (fun e he2 => (hall e he2).2) hOlen
      simp only [hms, Option.some_bind, Option.bind_eq_bind]
      rw [if_neg hflag]
  · -- Capabilities
    by_cases hflag : s.Capabilities.isEmpty = true
    · rw [if_pos hflag]
      exact funext fun st => by rw [if_pos hflag]; rfl
    · rw [if_neg hflag]
      have hall : ∀ e ∈ s.Capabilities, 1 ≤ (e : Bytes).length ∧ (e : Bytes).length < 2 ^ 32 := by
        intro e he2
        have := List.all_eq_true.mp hCall e he2
        simp only [Bool.and_eq_true, decide_eq_true_eq] at this
        exact this
      obtain ⟨t, ht⟩ := arraySymbol_marshal_head s.Capabilities
      have hne : multiSymbol.marshal s.Capabilities ≠ [] := by
        simp only [multiSymbol.marshal]
        rcases ht with ht | ht <;> simp [ht]
      have hh : (multiSymbol.marshal s.Capabilities).head? ≠ some 0x40 := by
        simp only [multiSymbol.marshal]
        rcases ht with ht | ht <;> simp [ht]
      refine ⟨multiSymbol.marshal s.Capabilities, rfl, hne, hh, fun st bs => ?_⟩
      have hms := multiSymbol_roundtrip s.Capabilities bs
        (fun e he2 => (hall e he2).1) (fun e he2 => (hall e he2).2) hClen
      simp only [hms, Option.some_bind, Option.bind_eq_bind]
      rw [if_neg hflag]

theorem length_dropWhile_le {α : Type} (p : α → Bool) (l : List α) :
    (l.dropWhile p).length ≤ l.length := by
  induction l with
  | nil => simp [List.dropWhile]
  | cons x xs ih =>
    rw [List.dropWhile_cons]
    split
    · exact le_trans ih (by simp)
    · simp

theorem trimLen_le (fields : List marshalField) : trimLen fields ≤ fields.length := by
  calc trimLen fields ≤ fields.reverse.length := length_dropWhile_le _ _
  _ = fields.length := List.length_reverse _

/-- Unmarshal of the empty-composite encoding returns the start state. -/
theorem unmarshalComposite_nofields {σ : Type} (code : Nat) (L : List (fieldSpec σ))
    (st : σ) (r : Bytes) (hcode : code < 256) :
    unmarshalComposite code (L.map fieldSpec.uf) st (([0, 0x53, code] ++ [0x45]) ++ r) =
      some (st, r) := by
  rw [unmarshalComposite]
  simp only [List.cons_append, List.nil_append, readCompositeHeader,
    if_pos rfl, readUlong, Option.bind_eq_bind]
  norm_num
  simp only [readListHeader, Option.some_bind]
  rw [Nat.mod_eq_of_lt hcode]
  rw [if_pos rfl, if_neg (by omega)]
  simp [List.take, unmarshalFields]

/-- Unmarshal of a nonempty composite encoding applies the retained
field effects. -/
theorem unmarshalComposite_fields {σ : Type} (code : Nat) (L : List (fieldSpec σ))
    (st : σ) (r : Bytes) (k : Nat) (payload : Bytes)
    (hcode : code < 256) (hk : k ≤ L.length) (hLlen : L.length < 2 ^ 32)
    (hpl : encodeMFields ((L.take k).map fieldSpec.mf) = some payload)
    (hok : ∀ f ∈ L.take k, f.Ok) :
    unmarshalComposite code (L.map fieldSpec.uf) st
      (([0, 0x53, code] ++
        (0xd0 :: (beBytes4 (payload.length + 4) ++ (beBytes4 k ++ payload)))) ++ r) =
      some ((L.take k).foldl (fun s f => f.tgt s) st, r) := by
  rw [unmarshalComposite]
  simp only [List.cons_append, List.nil_append, List.append_assoc,
    readCompositeHeader, if_pos rfl, readUlong, Option.bind_eq_bind]
  norm_num
  simp only [readListHeader, Option.some_bind]
  rw [readU32_beBytes4 (payload.length + 4)]
  simp only [Option.some_bind]
  rw [readU32_beBytes4_lt k _ (by omega)]
  simp only [Option.some_bind]
  rw [if_pos (by
    simp only [List.length_append, beBytes4_length]
    exact le_trans (Nat.mod_le _ _) (by omega))]
  rw [Nat.mod_eq_of_lt hcode]
  simp only [Option.some_bind]
  rw [if_pos trivial, if_neg (by omega)]
  rw [show (L.map fieldSpec.uf).take k = (L.take k).map fieldSpec.uf from
    (List.map_take _ _ _).symm]
  exact unmarshalFields_encodeMFields _ hok st payload r hpl


set_option maxRecDepth 8000 in
set_option maxHeartbeats 2000000 in
/-- Folding the target functions of the kept field specs over the zero state
reconstructs the original well-formed source. -/
theorem source_fold_eq (s : source) (hwf : source.wfb s = true) :
    ((source.specs s).take (trimLen (source.mFields s))).foldl
      (fun st f => f.tgt st) source.zero = s := by
  obtain ⟨A, Du, E, T, Dy, DNP, DM, F, DO, O, C⟩ := s
  have hwf2 := hwf
  simp only [source.wfb, Bool.and_eq_true] at hwf2
  have hEP := hwf2.1.1.1.1.1.1.1.1.1.1.1.2
  have hEPe : E = [] → (T = 0 ∧ Dy = false ∧ DNP = [] ∧ DM = [] ∧ F = [] ∧
      DO = AVal.anull ∧ O = [] ∧ C = []) := by
    intro h
    subst h
    simp [source.laterDefault, List.isEmpty_iff, Bool.and_eq_true] at hEP
    tauto
  have hEPs : E = expirySessionEnd → ¬(T = 0 ∧ Dy = false ∧ DNP = [] ∧ DM = [] ∧
      F = [] ∧ DO = AVal.anull ∧ O = [] ∧ C = []) := by
    intro h hcontra
    subst h
    obtain ⟨h1, h2, h3, h4, h5, h6, h7, h8⟩ := hcontra
    subst h1
    subst h3
    subst h4
    subst h5
    subst h7
    subst h8
    simp [source.laterDefault, h2, h6] at hEP
    exact absurd hEP (by decide)
  clear hEP hwf2 hwf
  by_cases c11 : C.isEmpty = true
  case neg =>
    have hEne : E ≠ [] :=
      fun h => c11 (by simp [((hEPe h).2.2.2.2.2.2.2), List.isEmpty_iff])
    simp [trimLen, source.mFields, c11]
    simp only [source.specs, List.take, List.foldl]
    simp only [source.mk.injEq, source.zero]
    refine ⟨?_, ?_, ?_, ?_, ?_, ?_, ?_, ?_, ?_, ?_, ?_⟩ <;>
      · rw [ite_eq_right_iff]
        intro hflag
        simp_all [List.isEmpty_iff, Bool.not_eq_true', beq_iff_eq]
  by_cases c10 : O.isEmpty = true
  case neg =>
    have hEne : E ≠ [] :=
      fun h => c10 (by simp [((hEPe h).2.2.2.2.2.2.1), List.isEmpty_iff])
    simp [trimLen, source.mFields, c11, c10]
    simp only [source.specs, List.take, List.foldl]
    simp only [source.mk.injEq, source.zero]
    refine ⟨?_, ?_, ?_, ?_, ?_, ?_, ?_, ?_, ?_, ?_, ?_⟩ <;>
      first
      | (rw [ite_eq_right_iff]
         intro hflag
         simp_all [List.isEmpty_iff, Bool.not_eq_true', beq_iff_eq])
      | simp_all [List.isEmpty_iff, Bool.not_eq_true', beq_iff_eq]
  by_cases c9 : (DO == AVal.anull) = true
  case neg =>
    have hEne : E ≠ [] :=
      fun h => c9 (by simp [((hEPe h).2.2.2.2.2.1)])
    simp [trimLen, source.mFields, c11, c10, c9]
    simp only [source.specs, List.take, List.foldl]
    simp only [source.mk.injEq, source.zero]
    refine ⟨?_, ?_, ?_, ?_, ?_, ?_, ?_, ?_, ?_, ?_, ?_⟩ <;>
      first
      | (rw [ite_eq_right_iff]
         intro hflag
         simp_all [List.isEmpty_iff, Bool.not_eq_true', beq_iff_eq])
      | simp_all [List.isEmpty_iff, Bool.not_eq_true', beq_iff_eq]
  by_cases c8 : F.isEmpty = true
  case neg =>
    have hEne : E ≠ [] :=
      fun h => c8 (by simp [((hEPe h).2.2.2.2.1), List.isEmpty_iff])
    simp [trimLen, source.mFields, c11, c10, c9, c8]
    simp only [source.specs, List.take, List.foldl]
    simp only [source.mk.injEq, source.zero]
    refine ⟨?_, ?_, ?_, ?_, ?_, ?_, ?_, ?_, ?_, ?_, ?_⟩ <;>
      first
      | (rw [ite_eq_right_iff]
         intro hflag
         simp_all [List.isEmpty_iff, Bool.not_eq_true', beq_iff_eq])
      | simp_all [List.isEmpty_iff, Bool.not_eq_true', beq_iff_eq]
  by_cases c7 : (DM == ([] : Bytes)) = true
  case neg =>
    have hEne : E ≠ [] :=
      fun h => c7 (by simp [((hEPe h).2.2.2.1)])
    simp [trimLen, source.mFields, c11, c10, c9, c8, c7]
    simp only [source.specs, List.take, List.foldl]
    simp only [source.mk.injEq, source.zero]
    refine ⟨?_, ?_, ?_, ?_, ?_, ?_, ?_, ?_, ?_, ?_, ?_⟩ <;>
      first
      | (rw [ite_eq_right_iff]
         intro hflag
         simp_all [List.isEmpty_iff, Bool.not_eq_true', beq_iff_eq])
      | simp_all [List.isEmpty_iff, Bool.not_eq_true', beq_iff_eq]
  by_cases c6 : DNP.isEmpty = true
  case neg =>
    have hEne : E ≠ [] :=
      fun h => c6 (by simp [((hEPe h).2.2.1), List.isEmpty_iff])
    simp [trimLen, source.mFields, c11, c10, c9, c8, c7, c6]
    simp only [source.specs, List.take, List.foldl]
    simp only [source.mk.injEq, source.zero]
    refine ⟨?_, ?_, ?_, ?_, ?_, ?_, ?_, ?_, ?_, ?_, ?_⟩ <;>
      first
      | (rw [ite_eq_right_iff]
         intro hflag
         simp_all [List.isEmpty_iff, Bool.not_eq_true', beq_iff_eq])
      | simp_all [List.isEmpty_iff, Bool.not_eq_true', beq_iff_eq]
  by_cases c5 : (!Dy) = true
  case neg =>
    have hEne : E ≠ [] :=
      fun h => c5 (by simp [((hEPe h).2.1)])
    simp [trimLen, source.mFields, c11, c10, c9, c8, c7, c6, c5]
    simp only [source.specs, List.take, List.foldl]
    simp only [source.mk.injEq, source.zero]
    refine ⟨?_, ?_, ?_, ?_, ?_, ?_, ?_, ?_, ?_, ?_, ?_⟩ <;>
      first
      | (rw [ite_eq_right_iff]
         intro hflag
         simp_all [List.isEmpty_iff, Bool.not_eq_true', beq_iff_eq])
      | simp_all [List.isEmpty_iff, Bool.not_eq_true', beq_iff_eq]
  by_cases c4 : (T == 0) = true
  case neg =>
    have hEne : E ≠ [] :=
      fun h => c4 (by simp [((hEPe h).1)])
    simp [trimLen, source.mFields, c11, c10, c9, c8, c7, c6, c5, c4]
    simp only [source.specs, List.take, List.foldl]
    simp only [source.mk.injEq, source.zero]
    refine ⟨?_, ?_, ?_, ?_, ?_, ?_, ?_, ?_, ?_, ?_, ?_⟩ <;>
      first
      | (rw [ite_eq_right_iff]
         intro hflag
         simp_all [List.isEmpty_iff, Bool.not_eq_true', beq_iff_eq])
      | simp_all [List.isEmpty_iff, Bool.not_eq_true', beq_iff_eq]
  -- from here on all the fields after ExpiryPolicy are defaulted
  have hdefs : T = 0 ∧ Dy = false ∧ DNP = [] ∧ DM = [] ∧ F = [] ∧
      DO = AVal.anull ∧ O = [] ∧ C = [] := by
    simp_all [List.isEmpty_iff, Bool.not_eq_true', beq_iff_eq]
  by_cases c3 : (E == [] || E == expirySessionEnd) = true
  case neg =>
    simp [trimLen, source.mFields, c11, c10, c9, c8, c7, c6, c5, c4, c3]
    simp only [source.specs, List.take, List.foldl]
    simp only [source.mk.injEq, source.zero]
    first
    | (refine ⟨?_, ?_, ?_, ?_, ?_, ?_, ?_, ?_, ?_, ?_, ?_⟩ <;>
        first
        | (rw [ite_eq_right_iff]
           intro hflag
           simp_all [List.isEmpty_iff, Bool.not_eq_true', beq_iff_eq])
        | simp_all [List.isEmpty_iff, Bool.not_eq_true', beq_iff_eq])
    | (rw [ite_eq_right_iff]
       intro hflag
       simp_all [List.isEmpty_iff, Bool.not_eq_true', beq_iff_eq])
    | simp_all [List.isEmpty_iff, Bool.not_eq_true', beq_iff_eq]
  have hE0 : E = [] := by
    have hc3 : E = [] ∨ E = expirySessionEnd := by
      simpa [beq_iff_eq, Bool.or_eq_true] using c3
    rcases hc3 with h | h
    · exact h
    · exact absurd hdefs (hEPs h)
  by_cases c2 : (Du == 0) = true
  case neg =>
    simp [trimLen, source.mFields, c11, c10, c9, c8, c7, c6, c5, c4, c3, c2]
    simp only [source.specs, List.take, List.foldl]
    simp only [source.mk.injEq, source.zero]
    first
    | (refine ⟨?_, ?_, ?_, ?_, ?_, ?_, ?_, ?_, ?_, ?_, ?_⟩ <;>
        first
        | (rw [ite_eq_right_iff]
           intro hflag
           simp_all [List.isEmpty_iff, Bool.not_eq_true', beq_iff_eq, hE0])
        | simp_all [List.isEmpty_iff, Bool.not_eq_true', beq_iff_eq, hE0])
    | (rw [ite_eq_right_iff]
       intro hflag
       simp_all [List.isEmpty_iff, Bool.not_eq_true', beq_iff_eq, hE0])
    | simp_all [List.isEmpty_iff, Bool.not_eq_true', beq_iff_eq, hE0]
  by_cases c1 : (A == ([] : Bytes)) = true
  case neg =>
    simp [trimLen, source.mFields, c11, c10, c9, c8, c7, c6, c5, c4, c3, c2, c1]
    simp only [source.specs, List.take, List.foldl]
    simp only [source.mk.injEq, source.zero]
    first
    | (refine ⟨?_, ?_, ?_, ?_, ?_, ?_, ?_, ?_, ?_, ?_, ?_⟩ <;>
        first
        | (rw [ite_eq_right_iff]
           intro hflag
           simp_all [List.isEmpty_iff, Bool.not_eq_true', beq_iff_eq, hE0])
        | simp_all [List.isEmpty_iff, Bool.not_eq_true', beq_iff_eq, hE0])
    | (rw [ite_eq_right_iff]
       intro hflag
       simp_all [List.isEmpty_iff, Bool.not_eq_true', beq_iff_eq, hE0])
    | simp_all [List.isEmpty_iff, Bool.not_eq_true', beq_iff_eq, hE0]
  -- everything defaulted: the composite encodes no fields at all
  simp [trimLen, source.mFields, c11, c10, c9, c8, c7, c6, c5, c4, c3, c2, c1]
  simp only [source.mk.injEq, source.zero]
  simp_all [List.isEmpty_iff, Bool.not_eq_true', beq_iff_eq, hE0]

/-- A well-formed source value survives a marshal/unmarshal round trip. -/
theorem source_roundtrip (s : source) (r : Bytes) (hwf : source.wfb s = true) :
    ∃ enc, source.marshal s = some enc ∧ source.unmarshal (enc ++ r) = some (s, r) := by
  have hok := source_specs_ok s hwf
  have hfold := source_fold_eq s hwf
  have hmf := source_specs_mf s
  have huf := source_specs_uf s
  have hlen11 : (source.specs s).length = 11 := rfl
  have hmflen : (source.mFields s).length = 11 := rfl
  have htl_le : trimLen (source.mFields s) ≤ 11 := hmflen ▸ trimLen_le _
  by_cases hempty : ((source.mFields s).take (trimLen (source.mFields s))).isEmpty = true
  · have htl0 : trimLen (source.mFields s) = 0 := by
      have h := List.isEmpty_iff.mp hempty
      rcases List.take_eq_nil_iff.mp h with h1 | h1
      · first
        | exact h1
        | exact absurd (congrArg List.length h1) (by simp [hmflen])
      · first
        | exact h1
        | exact absurd (congrArg List.length h1) (by simp [hmflen])
    have hs : source.zero = s := by
      rw [htl0] at hfold
      simpa using hfold
    refine ⟨[0, 0x53, 0x28] ++ [0x45], ?_, ?_⟩
    · rw [source.marshal, marshalComposite]
      rw [if_pos hempty]
    · rw [source.unmarshal, ← huf, ← hs]
      exact unmarshalComposite_nofields 0x28 (source.specs s) source.zero r (by norm_num)
  · obtain ⟨p, hpl⟩ :=
      encodeMFields_isSome ((source.specs s).take (trimLen (source.mFields s)))
        (fun f hf => hok f (List.take_subset _ _ hf))
    have hmt : ((source.specs s).take (trimLen (source.mFields s))).map fieldSpec.mf
        = (source.mFields s).take (trimLen (source.mFields s)) := by
      rw [List.map_take, hmf]
    have hplm : encodeMFields ((source.mFields s).take (trimLen (source.mFields s)))
        = some p := by rw [← hmt]; exact hpl
    have hkl : ((source.mFields s).take (trimLen (source.mFields s))).length
        = trimLen (source.mFields s) := by
      rw [List.length_take]
      omega
    refine ⟨[0, 0x53, 0x28] ++
      (0xd0 :: (beBytes4 (p.length + 4) ++
        (beBytes4 (trimLen (source.mFields s)) ++ p))), ?_, ?_⟩
    · simp only [source.marshal, marshalComposite]
      rw [if_neg hempty, hplm]
      simp only [Option.some_bind]
      rw [hkl]
    · rw [source.unmarshal, ← huf]
      have hres := unmarshalComposite_fields 0x28 (source.specs s) source.zero r
        (trimLen (source.mFields s)) p (by norm_num)
        (by rw [hlen11]; exact htl_le) (by rw [hlen11]; norm_num)
        hpl (fun f hf => hok f (List.take_subset _ _ hf))
      rw [hfold] at hres
      exact hres
theorem flatten_beBytes4_length (a : List Nat) :
    ((a.map beBytes4).flatten).length = a.length * 4 := by
  induction a with
  | nil => rfl
  | cons x xs ih =>
    simp only [List.map_cons, List.flatten_cons, List.length_append,
      beBytes4_length, ih, List.length_cons]
    ring

/-- The source used to refute the unconditional composite round trip:
its `ExpiryPolicy` is empty while the later `Capabilities` field is
set, so the marshaled form carries an explicit null for the policy. -/
def cexSource : source := { source.zero with Capabilities := [[120]] }

/-- C1: marshalling a source whose `ExpiryPolicy` is empty while a
later field is set writes an explicit null for the policy, and
unmarshal's null callback replaces it with `session-end`: the decoded
value differs from the original, refuting the unconditional
`decode(encode(v)) == v` for composites. -/
theorem C1_source_cex :
    ((source.marshal cexSource).bind fun enc => source.unmarshal enc)
      = some ({ cexSource with ExpiryPolicy := expirySessionEnd }, []) ∧
    ({ cexSource with ExpiryPolicy := expirySessionEnd } : source) ≠ cexSource := by
  constructor
  · decide
  · decide

/-- C1 (corrected): the codec round-trips typed `uint32` arrays — and the
marshaled array uses the one-byte `smalluint` element constructor exactly
when every element fits in a byte — and round-trips every composite
`source` that is well formed; well-formedness in particular rules out an
empty `ExpiryPolicy` with a later field set, where the explicit null
written for the policy would be turned back into `session-end` by the
unmarshal null callback (see the counterexample). -/
theorem C1_codec_roundtrip (a : List Nat) (s : source) (r : Bytes)
    (helem : ∀ x ∈ a, x < 2 ^ 32) (hlen : a.length < 2 ^ 32)
    (hwf : source.wfb s = true) :
    arrayUint32.unmarshal (arrayUint32.marshal a ++ r) = some (a, r) ∧
    (((readArrayHeader (arrayUint32.marshal a ++ r)).bind fun p => p.2.head?)
        = some 0x52 ↔ ∀ x ∈ a, x ≤ 255) ∧
    ∃ enc, source.marshal s = some enc ∧ source.unmarshal (enc ++ r) = some (s, r) := by
  refine ⟨arrayUint32_roundtrip a r helem hlen, ?_, source_roundtrip s r hwf⟩
  by_cases hsmall : a.all (fun n => decide (n ≤ 255)) = true
  · simp only [arrayUint32.marshal, if_pos hsmall, writeArrayHeader, Nat.mul_one,
      List.append_assoc]
    rw [readArrayHeader_writeArrayData a.length a.length 0x52 _ r
      (by simp) (Or.inl le_rfl) hlen]
    simp only [Option.some_bind, List.head?]
    simp only [List.all_eq_true, decide_eq_true_eq] at hsmall
    exact iff_of_true trivial hsmall
  · simp only [arrayUint32.marshal, if_neg hsmall, writeArrayHeader,
      List.append_assoc]
    rw [readArrayHeader_writeArrayData a.length (a.length * 4) 0x70 _ r
      (flatten_beBytes4_length a) (Or.inl (by omega)) hlen]
    simp only [Option.some_bind, List.head?]
    simp only [List.all_eq_true, decide_eq_true_eq, not_forall] at hsmall
    constructor
    · intro h
      exact absurd h (by decide)
    · intro h
      obtain ⟨x, hx, hgt⟩ := hsmall
      exact absurd (h x hx) hgt

/-- Witness for the C1 theorem at a concrete array and source. -/
theorem C1_codec_roundtrip_witness :
    (∀ x ∈ ([1, 300] : List Nat), x < 2 ^ 32) ∧
    ([1, 300] : List Nat).length < 2 ^ 32 ∧
    source.wfb source.zero = true ∧
    (arrayUint32.unmarshal (arrayUint32.marshal [1, 300] ++ [9]) = some ([1, 300], [9]) ∧
     (((readArrayHeader (arrayUint32.marshal [1, 300] ++ [9])).bind fun p => p.2.head?)
         = some 0x52 ↔ ∀ x ∈ ([1, 300] : List Nat), x ≤ 255) ∧
     ∃ enc, source.marshal source.zero = some enc ∧
       source.unmarshal (enc ++ [9]) = some (source.zero, [9])) :=
  ⟨by decide, by decide, by decide,
    C1_codec_roundtrip [1, 300] source.zero [9] (by decide) (by decide) (by decide)⟩
/-- `SenderSettleMode` constants translated from the sources:
`ModeUnsettled`, `ModeSettled`, `ModeMixed`. -/
def ModeUnsettled : Nat := 0

def ModeSettled : Nat := 1

def ModeMixed : Nat := 2

/-- `ReceiverSettleMode` constants translated from the sources:
`ModeFirst`, `ModeSecond`. -/
def ModeFirst : Nat := 0

def ModeSecond : Nat := 1

/-- `maxDeliveryTagLength` translated from the sources. -/
def maxDeliveryTagLength : Nat := 32

/-- `peekMessageType` translated from the sources: reads the
performative's short code from the head of a frame body without
consuming it.  The `len(buf) < 3` check comes first, then the `0x00`
described-type constructor, then the `ulong` descriptor in its
`ulong0`, `smallulong` or full `ulong` form. -/
def peekMessageType (buf : Bytes) : Option Nat :=
  if buf.length < 3 then none
  else
    match buf with
    | b0 :: b1 :: rest =>
      if b0 ≠ 0 then none
      else if b1 = 0x44 then some 0
      else if b1 = 0x53 then
        match rest with
        | [] => none
        | b2 :: _ => some b2
      else if b1 = 0x80 then
        (readU64 rest).bind fun p => some (p.1 % 256)
      else none
    | _ => none

/-- `readU64` fails on fewer than eight bytes. -/
theorem readU64_short (r : Bytes) (h : r.length < 8) : readU64 r = none := by
  match r, h with
  | [], _ => rfl
  | [a], _ => rfl
  | [a, b], _ => rfl
  | [a, b, c], _ => rfl
  | [a, b, c, d], _ => rfl
  | [a, b, c, d, e], _ => rfl
  | [a, b, c, d, e, f], _ => rfl
  | [a, b, c, d, e, f, g], _ => rfl
  | a :: b :: c :: d :: e :: f :: g :: h2 :: t, hlen =>
    simp only [List.length_cons] at hlen
    omega

/-- C9: `peekMessageType` rejects the two-byte `ulong0` descriptor form
`[0x00, 0x44]` because of its up-front `len(buf) < 3` check, although
that prefix is a complete, valid described-type header — the codec's own
`readUlong` accepts the `0x44` descriptor with no further bytes. -/
theorem C9_peek_cex :
    peekMessageType [0, 0x44] = none ∧ readUlong [0x44, 99] = some (0, [99]) := by
  constructor
  · decide
  · decide

/-- C9 (corrected): `peekMessageType` succeeds exactly on bodies of at
least three bytes that start with the `0x00` constructor and a `ulong`
descriptor — `ulong0` gives code 0, `smallulong` the next byte, the
full eight-byte `ulong` its low byte — and errors on any other first
byte, any other descriptor constructor, any buffer shorter than three
bytes (which wrongly includes the well-formed two-byte `ulong0` form),
and a full-`ulong` body shorter than ten bytes. -/
theorem C9_peek_message_type (b2 n : Nat) (r buf : Bytes) (b0 b1 : Nat)
    (hb0 : b0 ≠ 0) (hb1 : b1 ≠ 0x44 ∧ b1 ≠ 0x53 ∧ b1 ≠ 0x80)
    (hshort : buf.length < 3) (hr8 : r.length < 8) :
    peekMessageType (0 :: 0x44 :: b2 :: r) = some 0 ∧
    peekMessageType (0 :: 0x53 :: b2 :: r) = some b2 ∧
    peekMessageType (0 :: 0x80 :: (beBytes8 n ++ r)) = some (n % 256) ∧
    peekMessageType (b0 :: 0x53 :: b2 :: r) = none ∧
    peekMessageType (0 :: b1 :: b2 :: r) = none ∧
    peekMessageType buf = none ∧
    peekMessageType (0 :: 0x80 :: r) = none := by
  refine ⟨?_, ?_, ?_, ?_, ?_, ?_, ?_⟩
  · simp [peekMessageType]
  · simp [peekMessageType]
  · simp only [peekMessageType, List.length_cons, List.length_append, beBytes8_length]
    rw [if_neg (by omega)]
    have h8 : readU64 (beBytes8 n ++ r) = some (n % 2 ^ 64, r) := readU64_beBytes8 n r
    simp only [if_neg (by decide : ¬(0 : Nat) ≠ 0), if_neg (by decide : ¬(0x80 : Nat) = 0x44),
      if_neg (by decide : ¬(0x80 : Nat) = 0x53), if_pos rfl, h8, Option.some_bind]
    have : n % 2 ^ 64 % 256 = n % 256 := Nat.mod_mod_of_dvd n (by norm_num)
    rw [this]
    exact if_pos trivial
  · simp [peekMessageType, hb0]
  · simp [peekMessageType, hb1.1, hb1.2.1, hb1.2.2]
  · simp [peekMessageType, hshort]
  · simp only [peekMessageType, List.length_cons]
    by_cases h3 : r.length + 1 + 1 < 3
    · rw [if_pos h3]
    · rw [if_neg h3]
      simp only [if_neg (by decide : ¬(0 : Nat) ≠ 0), if_neg (by decide : ¬(0x80 : Nat) = 0x44),
        if_neg (by decide : ¬(0x80 : Nat) = 0x53), if_pos rfl, readU64_short r hr8,
        Option.none_bind]
      exact if_pos trivial

/-- Witness for the C9 theorem at concrete buffers. -/
theorem C9_peek_message_type_witness :
    ((5 : Nat) ≠ 0) ∧ ((0x99 : Nat) ≠ 0x44 ∧ (0x99 : Nat) ≠ 0x53 ∧ (0x99 : Nat) ≠ 0x80) ∧
    ([0, 0x53] : Bytes).length < 3 ∧ ([7] : Bytes).length < 8 ∧
    (peekMessageType (0 :: 0x44 :: 0x23 :: [7]) = some 0 ∧
     peekMessageType (0 :: 0x53 :: 0x23 :: [7]) = some 0x23 ∧
     peekMessageType (0 :: 0x80 :: (beBytes8 300 ++ [7])) = some (300 % 256) ∧
     peekMessageType (5 :: 0x53 :: 0x23 :: [7]) = none ∧
     peekMessageType (0 :: 0x99 :: 0x23 :: [7]) = none ∧
     peekMessageType [0, 0x53] = none ∧
     peekMessageType (0 :: 0x80 :: [7]) = none) :=
  ⟨by decide, by decide, by decide, by decide,
    C9_peek_message_type 0x23 300 [7] [0, 0x53] 5 0x99 (by decide)
      ⟨by decide, by decide, by decide⟩ (by decide) (by decide)⟩

/-- The Transfer performative with the fields `Sender.send` fills,
translated from the sources. -/
structure PerformTransfer where
  Handle : Nat
  DeliveryID : Option Nat
  DeliveryTag : Option Bytes
  MessageFormat : Option Nat
  Settled : Bool
  More : Bool
  Payload : Bytes
deriving DecidableEq

/-- Modelled from the spec: the constant `maxTransferFrameHeader` is
referenced by `Sender.send` but its definition is not among the staged
sources; the spec caps each Transfer frame's payload at the peer max
frame size minus the transfer header overhead, and this value makes a
512-byte message on a 128-byte max frame size split into nine frames,
eight of them flagged `more`, exactly as `TestSenderSendMultiTransfer`
requires. -/
def maxTransferFrameHeader : Nat := 66

/-- `senderSettled` translated from the sources (`Sender.send`): the
delivery goes out settled exactly when a sender settle mode is set and
it is `settled`, or it is `mixed` and the message's per-send
`SendSettled` flag is set. -/
def senderSettled (mode : Option Nat) (sendSettled : Bool) : Bool :=
  match mode with
  | some m => m == ModeSettled || (m == ModeMixed && sendSettled)
  | none => false

/-- The chunking loop of `Sender.send` translated from the sources,
with the remaining buffer passed explicitly and a fuel argument in
place of the loop: each iteration takes the next segment of at most
`maxSz` payload bytes and emits one Transfer frame, recomputing `more`
from the bytes left; only the first frame still carries the delivery
id, tag and message format (the loop clears them after the first
emission); the settled flag is set on the final frame alone.  The
caller enters the loop only when the marshaled message is nonempty
(the loop guard is the initial `more`). -/
def sendFrames (handle deliveryID : Nat) (tag : Bytes) (fmt : Nat) (settled : Bool)
    (maxSz : Nat) : Nat → Bool → Bytes → List PerformTransfer
  | 0, _, _ => []
  | fuel + 1, isFirst, payload =>
    let isLast := (payload.drop maxSz).isEmpty
    { Handle := handle
      DeliveryID := if isFirst then some deliveryID else none
      DeliveryTag := if isFirst then some tag else none
      MessageFormat := if isFirst then some fmt else none
      Settled := isLast && settled
      More := !isLast
      Payload := payload.take maxSz } ::
      if isLast then []
      else sendFrames handle deliveryID tag fmt settled maxSz fuel false (payload.drop maxSz)

/-- The sender-side state `Sender.send` touches under its mutex. -/
structure SendState where
  nextDeliveryTag : Nat
deriving DecidableEq

/-- The errors `Sender.send` reports before emitting anything. -/
inductive SendErr where
  | tagTooLong
  | messageTooLarge
deriving DecidableEq

/-- `Sender.send` translated from the sources.  `payload` stands for
the marshaled message (`msg.Marshal` into the scratch buffer) and
`deliveryID` for the freshly incremented session delivery id.  The
delivery-tag length check against `maxDeliveryTagLength` comes first
and leaves the state untouched on failure; then the encoded size is
checked against a nonzero `maxMessageSize`; an empty tag is replaced by
the eight-byte big-endian encoding of the per-sender counter, which is
then incremented (wrapping as a `uint64`); finally the payload is
chunked into Transfer frames — none at all when the marshaled message
is empty, since the loop guard is the initial `more`. -/
def senderSend (handle peerMaxFrameSize deliveryID fmt maxMessageSize : Nat)
    (mode : Option Nat) (sendSettled : Bool) (st : SendState) (tag payload : Bytes) :
    SendState × Except SendErr (List PerformTransfer) :=
  if maxDeliveryTagLength < tag.length then (st, .error .tagTooLong)
  else if maxMessageSize ≠ 0 ∧ maxMessageSize < payload.length then
    (st, .error .messageTooLarge)
  else
    let tag2 := if tag.isEmpty then beBytes8 st.nextDeliveryTag else tag
    let st2 := if tag.isEmpty then
        { st with nextDeliveryTag := (st.nextDeliveryTag + 1) % 2 ^ 64 }
      else st
    if payload.isEmpty then (st2, .ok [])
    else
      (st2, .ok (sendFrames handle deliveryID tag2 fmt (senderSettled mode sendSettled)
        (peerMaxFrameSize - maxTransferFrameHeader) (payload.length + 1) true payload))

theorem sendFrames_ne_nil (h id fmt maxSz fuel : Nat) (tag : Bytes) (stl isFirst : Bool)
    (payload : Bytes) (hf : 0 < fuel) :
    sendFrames h id tag fmt stl maxSz fuel isFirst payload ≠ [] := by
  match fuel, hf with
  | fuel + 1, _ => simp [sendFrames]

theorem sendFrames_flatten (h id fmt maxSz : Nat) (tag : Bytes) (stl : Bool)
    (hms : 0 < maxSz) :
    ∀ fuel payload isFirst, payload.length < fuel →
      ((sendFrames h id tag fmt stl maxSz fuel isFirst payload).map
        (fun fr => fr.Payload)).flatten = payload := by
  intro fuel
  induction fuel with
  | zero => intro payload _ hlen; omega
  | succ n ih =>
    intro payload isFirst hlen
    by_cases hlast : (payload.drop maxSz).isEmpty = true
    · simp only [sendFrames, if_pos hlast, List.map_cons, List.map_nil,
        List.flatten_cons, List.flatten_nil, List.append_nil]
      have hd : payload.drop maxSz = [] := List.isEmpty_iff.mp hlast
      conv_rhs => rw [← List.take_append_drop maxSz payload, hd]
      rw [List.append_nil]
    · simp only [sendFrames, if_neg hlast, List.map_cons, List.flatten_cons]
      rw [ih (payload.drop maxSz) false
        (by
          have : (payload.drop maxSz).length = payload.length - maxSz :=
            List.length_drop _ _
          have hne : payload.drop maxSz ≠ [] := fun hh => hlast (by simp [hh])
          have : 0 < (payload.drop maxSz).length := List.length_pos.mpr hne
          omega)]
      exact List.take_append_drop maxSz payload

theorem sendFrames_mem (h id fmt maxSz : Nat) (tag : Bytes) (stl : Bool) :
    ∀ fuel payload isFirst fr,
      fr ∈ sendFrames h id tag fmt stl maxSz fuel isFirst payload →
      fr.Handle = h ∧ fr.Payload.length ≤ maxSz ∧ fr.Settled = (!fr.More && stl) := by
  intro fuel
  induction fuel with
  | zero => intro payload isFirst fr hmem; simp [sendFrames] at hmem
  | succ n ih =>
    intro payload isFirst fr hmem
    by_cases hlast : (payload.drop maxSz).isEmpty = true
    · simp only [sendFrames, if_pos hlast, List.mem_singleton] at hmem
      subst hmem
      simp [hlast, List.length_take] <;> omega
    · simp only [sendFrames, if_neg hlast, List.mem_cons] at hmem
      rcases hmem with hmem | hmem
      · subst hmem
        simp [hlast, List.length_take] <;> omega
      · exact ih (payload.drop maxSz) false fr hmem

theorem sendFrames_tail_none (h id fmt maxSz : Nat) (tag : Bytes) (stl : Bool) :
    ∀ fuel payload fr,
      fr ∈ sendFrames h id tag fmt stl maxSz fuel false payload →
      fr.DeliveryID = none ∧ fr.DeliveryTag = none ∧ fr.MessageFormat = none := by
  intro fuel
  induction fuel with
  | zero => intro payload fr hmem; simp [sendFrames] at hmem
  | succ n ih =>
    intro payload fr hmem
    by_cases hlast : (payload.drop maxSz).isEmpty = true
    · simp only [sendFrames, if_pos hlast, List.mem_singleton] at hmem
      subst hmem
      simp
    · simp only [sendFrames, if_neg hlast, List.mem_cons] at hmem
      rcases hmem with hmem | hmem
      · subst hmem
        simp
      · exact ih (payload.drop maxSz) fr hmem

theorem sendFrames_first (h id fmt maxSz fuel : Nat) (tag : Bytes) (stl : Bool)
    (payload : Bytes) (hf : 0 < fuel) :
    ∃ fr rest, sendFrames h id tag fmt stl maxSz fuel true payload = fr :: rest ∧
      fr.DeliveryID = some id ∧ fr.DeliveryTag = some tag ∧ fr.MessageFormat = some fmt ∧
      ∀ fr2 ∈ rest, fr2.DeliveryID = none ∧ fr2.DeliveryTag = none ∧
        fr2.MessageFormat = none := by
  match fuel, hf with
  | fuel + 1, _ =>
    by_cases hlast : (payload.drop maxSz).isEmpty = true
    · refine ⟨_, _, by rw [sendFrames, if_pos hlast], rfl, rfl, rfl, ?_⟩
      intro fr2 hmem
      simp at hmem
    · refine ⟨_, _, by rw [sendFrames, if_neg hlast], rfl, rfl, rfl, ?_⟩
      intro fr2 hmem
      exact sendFrames_tail_none h id fmt maxSz tag stl fuel _ fr2 hmem

theorem sendFrames_more (h id fmt maxSz : Nat) (tag : Bytes) (stl : Bool)
    (hms : 0 < maxSz) :
    ∀ fuel payload isFirst,
      payload.length < fuel →
      (sendFrames h id tag fmt stl maxSz fuel isFirst payload).map (fun fr => fr.More) =
        List.replicate
          ((sendFrames h id tag fmt stl maxSz fuel isFirst payload).length - 1) true
          ++ [false] := by
  intro fuel
  induction fuel with
  | zero => intro payload isFirst hf; omega
  | succ n ih =>
    intro payload isFirst hlen
    by_cases hlast : (payload.drop maxSz).isEmpty = true
    · simp [sendFrames, hlast]
    · have hdrop : (payload.drop maxSz).length < n := by
        have h1 : (payload.drop maxSz).length = payload.length - maxSz :=
          List.length_drop _ _
        have hne : payload.drop maxSz ≠ [] := fun hh => hlast (by simp [hh])
        have h2 : 0 < (payload.drop maxSz).length := List.length_pos.mpr hne
        omega
      have hn : 0 < n := by omega
      simp only [sendFrames, if_neg hlast, List.map_cons, List.length_cons]
      rw [ih (payload.drop maxSz) false hdrop]
      have hlen2 : 0 < (sendFrames h id tag fmt stl maxSz n false (payload.drop maxSz)).length := by
        have := sendFrames_ne_nil h id fmt maxSz n tag stl false (payload.drop maxSz) hn
        exact List.length_pos.mpr this
      rw [show (sendFrames h id tag fmt stl maxSz n false (payload.drop maxSz)).length + 1 - 1
          = ((sendFrames h id tag fmt stl maxSz n false (payload.drop maxSz)).length - 1) + 1
        from by omega]
      simp [List.replicate_succ, hlast]

/-- C2: a message accepted by `Sender.send` — its tag within the limit,
its encoded size within a nonzero `maxMessageSize`, its marshaled form
nonempty — on a link whose peer max frame size exceeds the transfer
header overhead, goes out as consecutive Transfer frames that
concatenate back to the payload; each frame's payload is at most the
peer max frame size minus the header overhead; every frame carries the
link handle; only the first frame carries the delivery id, delivery tag
and message format; `more` is set on every frame but the last; and a
frame is settled exactly when it is the last one and the mode settles
on send — sender settle mode `settled`, or `mixed` with the per-send
flag set. -/
theorem C2_send_transfer_frames (handle pmfs deliveryID fmt mms : Nat)
    (mode : Option Nat) (sendSettled : Bool) (st : SendState) (tag payload : Bytes)
    (htag : tag.length ≤ maxDeliveryTagLength)
    (hsz : mms = 0 ∨ payload.length ≤ mms)
    (hne : payload ≠ [])
    (hpm : maxTransferFrameHeader < pmfs) :
    ∃ frames,
      (senderSend handle pmfs deliveryID fmt mms mode sendSettled st tag payload).2
        = .ok frames ∧
      (frames.map fun fr => fr.Payload).flatten = payload ∧
      (∀ fr ∈ frames, fr.Handle = handle ∧
        fr.Payload.length ≤ pmfs - maxTransferFrameHeader ∧
        fr.Settled = (!fr.More && senderSettled mode sendSettled)) ∧
      (∃ fr rest, frames = fr :: rest ∧ fr.DeliveryID = some deliveryID ∧
        fr.MessageFormat = some fmt ∧
        (fr.DeliveryTag = some tag ∨
          fr.DeliveryTag = some (beBytes8 st.nextDeliveryTag)) ∧
        ∀ fr2 ∈ rest, fr2.DeliveryID = none ∧ fr2.DeliveryTag = none ∧
          fr2.MessageFormat = none) ∧
      (frames.map fun fr => fr.More) =
        List.replicate (frames.length - 1) true ++ [false] ∧
      (senderSettled mode sendSettled = true ↔
        mode = some ModeSettled ∨ (mode = some ModeMixed ∧ sendSettled = true)) := by
  have hms : 0 < pmfs - maxTransferFrameHeader := Nat.sub_pos_of_lt hpm
  refine ⟨sendFrames handle deliveryID
      (if tag.isEmpty then beBytes8 st.nextDeliveryTag else tag) fmt
      (senderSettled mode sendSettled) (pmfs - maxTransferFrameHeader)
      (payload.length + 1) true payload, ?_, ?_, ?_, ?_, ?_, ?_⟩
  · rw [senderSend, if_neg (show ¬ maxDeliveryTagLength < tag.length by omega),
      if_neg (show ¬ (mms ≠ 0 ∧ mms < payload.length) by
        rcases hsz with h | h <;> omega),
      if_neg (show ¬ payload.isEmpty = true by simp [List.isEmpty_iff, hne])]
  · exact sendFrames_flatten handle deliveryID fmt (pmfs - maxTransferFrameHeader) _
      (senderSettled mode sendSettled) hms (payload.length + 1) payload true (by omega)
  · intro fr hfr
    exact sendFrames_mem handle deliveryID fmt (pmfs - maxTransferFrameHeader) _
      (senderSettled mode sendSettled) (payload.length + 1) payload true fr hfr
  · obtain ⟨fr, rest, heq, hid, htg, hfmt, hrest⟩ :=
      sendFrames_first handle deliveryID fmt (pmfs - maxTransferFrameHeader)
        (payload.length + 1) (if tag.isEmpty then beBytes8 st.nextDeliveryTag else tag)
        (senderSettled mode sendSettled) payload (by omega)
    refine ⟨fr, rest, heq, hid, hfmt, ?_, hrest⟩
    by_cases hemp : tag.isEmpty
    · rw [if_pos hemp] at htg
      exact Or.inr htg
    · rw [if_neg hemp] at htg
      exact Or.inl htg
  · exact sendFrames_more handle deliveryID fmt (pmfs - maxTransferFrameHeader) _
      (senderSettled mode sendSettled) hms (payload.length + 1) payload true (by omega)
  · rcases mode with _ | m <;>
      simp [senderSettled, ModeSettled, ModeMixed]

/-- Witness for the C2 theorem on a concrete two-frame send. -/
theorem C2_send_transfer_frames_witness :
    ([1] : Bytes).length ≤ maxDeliveryTagLength ∧
    ((0 : Nat) = 0 ∨ (List.replicate 100 5 : Bytes).length ≤ 0) ∧
    (List.replicate 100 5 : Bytes) ≠ [] ∧
    maxTransferFrameHeader < 128 ∧
    ∃ frames,
      (senderSend 3 128 1 0 0 (some ModeUnsettled) false ⟨7⟩ [1]
          (List.replicate 100 5)).2 = .ok frames ∧
      (frames.map fun fr => fr.Payload).flatten = List.replicate 100 5 ∧
      (∀ fr ∈ frames, fr.Handle = 3 ∧
        fr.Payload.length ≤ 128 - maxTransferFrameHeader ∧
        fr.Settled = (!fr.More && senderSettled (some ModeUnsettled) false)) ∧
      (∃ fr rest, frames = fr :: rest ∧ fr.DeliveryID = some 1 ∧
        fr.MessageFormat = some 0 ∧
        (fr.DeliveryTag = some [1] ∨
          fr.DeliveryTag = some (beBytes8 (SendState.mk 7).nextDeliveryTag)) ∧
        ∀ fr2 ∈ rest, fr2.DeliveryID = none ∧ fr2.DeliveryTag = none ∧
          fr2.MessageFormat = none) ∧
      (frames.map fun fr => fr.More) =
        List.replicate (frames.length - 1) true ++ [false] ∧
      (senderSettled (some ModeUnsettled) false = true ↔
        some ModeUnsettled = some ModeSettled ∨
          (some ModeUnsettled = some ModeMixed ∧ false = true)) :=
  ⟨by decide, Or.inl rfl, by decide, by decide,
    C2_send_transfer_frames 3 128 1 0 0 (some ModeUnsettled) false ⟨7⟩ [1]
      (List.replicate 100 5) (by decide) (Or.inl rfl) (by decide) (by decide)⟩

/-- C8: a delivery tag longer than 32 bytes makes `Sender.send` fail
with the tag-too-long error before marshaling anything or producing any
Transfer frame, and the sender state is returned unchanged. -/
theorem C8_tag_too_long (handle pmfs deliveryID fmt mms : Nat) (mode : Option Nat)
    (sendSettled : Bool) (st : SendState) (tag payload : Bytes)
    (htag : maxDeliveryTagLength < tag.length) :
    senderSend handle pmfs deliveryID fmt mms mode sendSettled st tag payload
      = (st, .error .tagTooLong) := by
  rw [senderSend, if_pos htag]

/-- Witness for the C8 theorem at a 33-byte tag. -/
theorem C8_tag_too_long_witness :
    maxDeliveryTagLength < (List.replicate 33 0 : Bytes).length ∧
    senderSend 3 128 1 0 0 (some ModeUnsettled) false ⟨7⟩ (List.replicate 33 0) [4]
      = (⟨7⟩, .error .tagTooLong) :=
  ⟨by decide,
    C8_tag_too_long 3 128 1 0 0 (some ModeUnsettled) false ⟨7⟩ (List.replicate 33 0) [4]
      (by decide)⟩

/-- C10: a message sent with an empty delivery tag gets the eight-byte
big-endian encoding of the per-sender counter as its tag, the counter
is incremented (wrapping as a `uint64`), the auto tag always respects
the 32-byte limit, tags of successive auto-tagged sends differ, and a
non-empty caller tag is used verbatim with the counter untouched. -/
theorem C10_auto_delivery_tag (handle pmfs deliveryID fmt mms : Nat) (mode : Option Nat)
    (sendSettled : Bool) (st : SendState) (tag payload : Bytes)
    (hlt : st.nextDeliveryTag < 2 ^ 64)
    (hsz : mms = 0 ∨ payload.length ≤ mms)
    (hpl : payload ≠ []) :
    (∃ frames fr rest,
      senderSend handle pmfs deliveryID fmt mms mode sendSettled st [] payload
          = (⟨(st.nextDeliveryTag + 1) % 2 ^ 64⟩, .ok frames) ∧
        frames = fr :: rest ∧
        fr.DeliveryTag = some (beBytes8 st.nextDeliveryTag) ∧
        (beBytes8 st.nextDeliveryTag).length = 8 ∧
        (beBytes8 st.nextDeliveryTag).length ≤ maxDeliveryTagLength) ∧
    beBytes8 ((st.nextDeliveryTag + 1) % 2 ^ 64) ≠ beBytes8 st.nextDeliveryTag ∧
    (tag ≠ [] → tag.length ≤ maxDeliveryTagLength →
      ∃ frames fr rest,
        senderSend handle pmfs deliveryID fmt mms mode sendSettled st tag payload
            = (st, .ok frames) ∧
          frames = fr :: rest ∧ fr.DeliveryTag = some tag) := by
  have hszneg : ¬ (mms ≠ 0 ∧ mms < payload.length) := by
    rcases hsz with h | h <;> omega
  have hpe : ¬ payload.isEmpty = true := by simp [List.isEmpty_iff, hpl]
  refine ⟨?_, ?_, ?_⟩
  · obtain ⟨fr, rest, heq, hid, htg, hfmt, hrest⟩ :=
      sendFrames_first handle deliveryID fmt (pmfs - maxTransferFrameHeader)
        (payload.length + 1) (beBytes8 st.nextDeliveryTag)
        (senderSettled mode sendSettled) payload (by omega)
    refine ⟨_, fr, rest, ?_, heq, htg, beBytes8_length _, by rw [beBytes8_length]; decide⟩
    rw [senderSend, if_neg (by simp [maxDeliveryTagLength]), if_neg hszneg,
      if_neg hpe]
    rfl
  · intro hcontra
    have hmod := beBytes8_inj_mod _ _ hcontra
    rw [Nat.mod_mod_of_dvd, Nat.mod_eq_of_lt hlt] at hmod
    · have h64 : (2 : Nat) ^ 64 = 18446744073709551616 := by norm_num
      rw [h64] at hmod hlt
      omega
    · exact dvd_refl _
  · intro hne2 htag
    obtain ⟨fr, rest, heq, hid, htg, hfmt, hrest⟩ :=
      sendFrames_first handle deliveryID fmt (pmfs - maxTransferFrameHeader)
        (payload.length + 1) tag (senderSettled mode sendSettled) payload (by omega)
    refine ⟨_, fr, rest, ?_, heq, htg⟩
    rw [senderSend, if_neg (show ¬ maxDeliveryTagLength < tag.length by omega),
      if_neg hszneg]
    simp only [List.isEmpty_iff, if_neg hne2, if_neg hpe]
    rw [if_neg hpl]

/-- Witness for the C10 theorem at a concrete sender state. -/
theorem C10_auto_delivery_tag_witness :
    (SendState.mk 5).nextDeliveryTag < 2 ^ 64 ∧
    ((0 : Nat) = 0 ∨ ([1, 2, 3] : Bytes).length ≤ 0) ∧
    ([1, 2, 3] : Bytes) ≠ [] ∧
    ((∃ frames fr rest,
      senderSend 3 128 1 0 0 (some ModeUnsettled) false ⟨5⟩ [] [1, 2, 3]
          = (⟨((SendState.mk 5).nextDeliveryTag + 1) % 2 ^ 64⟩, .ok frames) ∧
        frames = fr :: rest ∧
        fr.DeliveryTag = some (beBytes8 (SendState.mk 5).nextDeliveryTag) ∧
        (beBytes8 (SendState.mk 5).nextDeliveryTag).length = 8 ∧
        (beBytes8 (SendState.mk 5).nextDeliveryTag).length ≤ maxDeliveryTagLength) ∧
    beBytes8 (((SendState.mk 5).nextDeliveryTag + 1) % 2 ^ 64)
        ≠ beBytes8 (SendState.mk 5).nextDeliveryTag ∧
    (([2] : Bytes) ≠ [] → ([2] : Bytes).length ≤ maxDeliveryTagLength →
      ∃ frames fr rest,
        senderSend 3 128 1 0 0 (some ModeUnsettled) false ⟨5⟩ [2] [1, 2, 3]
            = (⟨5⟩, .ok frames) ∧
          frames = fr :: rest ∧ fr.DeliveryTag = some [2])) :=
  ⟨by decide, Or.inl rfl, by decide,
    C10_auto_delivery_tag 3 128 1 0 0 (some ModeUnsettled) false ⟨5⟩ [2] [1, 2, 3]
      (by decide) (Or.inl rfl) (by decide)⟩
/-- The credit-relevant part of the sender mux state: whether a final
transfer has been dequeued but not yet handed to the session, the link
credit and the delivery count (both `uint32`). -/
structure MuxState where
  pending : Bool
  linkCredit : Nat
  deliveryCount : Nat
deriving DecidableEq

/-- The link-credit recomputation of `Sender.muxHandleFrame`'s Flow
branch translated from the sources: the peer's granted credit minus the
sender's own delivery count, plus the peer's delivery count when it is
present, in wrapping `uint32` arithmetic. -/
def muxFlowCredit (deliveryCount lc : Nat) (dc : Option Nat) : Nat :=
  match dc with
  | some d => u32add (u32sub lc deliveryCount) d
  | none => u32sub lc deliveryCount

/-- The credit-related transitions of `Sender.mux` translated from the
sources: the outgoing-transfers channel is enabled — so a message is
dequeued — only while the link credit is positive; handing the dequeued
final transfer to the session decrements the credit and increments the
delivery count (`s.linkCredit--` and `s.deliveryCount++` on `uint32`);
while the mux waits, an incoming Flow recomputes the credit at any
time, including between the dequeue and the handoff (the inner loop
keeps processing `s.rx`).  Transfers flagged `more` leave both counters
unchanged and are not tracked. -/
inductive MuxStep : MuxState → MuxState → Prop
  | dequeue (s : MuxState) (hp : s.pending = false) (hc : 0 < s.linkCredit) :
      MuxStep s { s with pending := true }
  | handoff (s : MuxState) (hp : s.pending = true) :
      MuxStep s ⟨false, u32sub s.linkCredit 1, u32add s.deliveryCount 1⟩
  | rxFlow (s : MuxState) (lc : Nat) (dc : Option Nat) (hlc : lc < 2 ^ 32) :
      MuxStep s { s with linkCredit := muxFlowCredit s.deliveryCount lc dc }

/-- Any delivery count below `2^32` is reachable from the freshly
attached state by granting one credit, dequeuing and handing off, that
many times. -/
theorem mux_reach_dc (n : Nat) (hn : n < 2 ^ 32) :
    Relation.ReflTransGen MuxStep ⟨false, 0, 0⟩ ⟨false, 0, n⟩ := by
  induction n with
  | zero => exact Relation.ReflTransGen.refl
  | succ m ih =>
    have hm : m < 2 ^ 32 := by omega
    refine Relation.ReflTransGen.trans (ih hm) ?_
    have e : (2 : Nat) ^ 32 = 4294967296 := by norm_num
    have h1 : MuxStep ⟨false, 0, m⟩ ⟨false, 1, m⟩ := by
      have harith : muxFlowCredit m 1 (some m) = 1 := by
        simp only [muxFlowCredit, u32add, u32sub, e]
        omega
      have hstep := MuxStep.rxFlow ⟨false, 0, m⟩ 1 (some m) (by norm_num)
      rw [show ({ (⟨false, 0, m⟩ : MuxState) with
          linkCredit := muxFlowCredit m 1 (some m) } : MuxState) = ⟨false, 1, m⟩ from by
        rw [harith]] at hstep
      exact hstep
    have h2 : MuxStep ⟨false, 1, m⟩ ⟨true, 1, m⟩ :=
      MuxStep.dequeue ⟨false, 1, m⟩ rfl (by norm_num)
    have h3 : MuxStep ⟨true, 1, m⟩ ⟨false, 0, m + 1⟩ := by
      have ha : u32sub 1 1 = 0 := by
        simp only [u32sub, e]
      have hb : u32add m 1 = m + 1 := by
        simp only [u32add, e]
        omega
      have hstep := MuxStep.handoff ⟨true, 1, m⟩ rfl
      rw [show (⟨false, u32sub 1 1, u32add m 1⟩ : MuxState) = ⟨false, 0, m + 1⟩ from by
        rw [ha, hb]] at hstep
      exact hstep
    exact .tail (.tail (.single h1) h2) h3

/-- C4: the credit invariant fails — a Flow arriving between the
dequeue and the handoff can zero the credit, after which the final
transfer is still handed to the session with `link_credit = 0` and the
`uint32` credit decrement wraps to `2^32 - 1`; moreover a handoff at
`delivery_count = 2^32 - 1` wraps the count to `0`, breaking
monotonicity.  Both offending states are reachable from the freshly
attached state. -/
theorem C4_mux_cex :
    Relation.ReflTransGen MuxStep ⟨false, 0, 0⟩ ⟨true, 0, 0⟩ ∧
    MuxStep ⟨true, 0, 0⟩ ⟨false, 2 ^ 32 - 1, 1⟩ ∧
    Relation.ReflTransGen MuxStep ⟨false, 0, 0⟩ ⟨true, 0, 2 ^ 32 - 1⟩ ∧
    MuxStep ⟨true, 0, 2 ^ 32 - 1⟩ ⟨false, 2 ^ 32 - 1, 0⟩ ∧
    (0 : Nat) < 2 ^ 32 - 1 := by
  have e : (2 : Nat) ^ 32 = 4294967296 := by norm_num
  refine ⟨?_, ?_, ?_, ?_, by norm_num⟩
  · have h1 : MuxStep ⟨false, 0, 0⟩ ⟨false, 1, 0⟩ := by
      have hstep := MuxStep.rxFlow ⟨false, 0, 0⟩ 1 none (by norm_num)
      rw [show ({ (⟨false, 0, 0⟩ : MuxState) with
          linkCredit := muxFlowCredit 0 1 none } : MuxState) = ⟨false, 1, 0⟩ from by
        norm_num [muxFlowCredit, u32sub]] at hstep
      exact hstep
    have h2 : MuxStep ⟨false, 1, 0⟩ ⟨true, 1, 0⟩ :=
      MuxStep.dequeue ⟨false, 1, 0⟩ rfl (by norm_num)
    have h3 : MuxStep ⟨true, 1, 0⟩ ⟨true, 0, 0⟩ := by
      have hstep := MuxStep.rxFlow ⟨true, 1, 0⟩ 0 none (by norm_num)
      rw [show ({ (⟨true, 1, 0⟩ : MuxState) with
          linkCredit := muxFlowCredit 0 0 none } : MuxState) = ⟨true, 0, 0⟩ from by
        norm_num [muxFlowCredit, u32sub]] at hstep
      exact hstep
    exact .tail (.tail (.single h1) h2) h3
  · have hstep := MuxStep.handoff ⟨true, 0, 0⟩ rfl
    rw [show (⟨false, u32sub 0 1, u32add 0 1⟩ : MuxState) = ⟨false, 2 ^ 32 - 1, 1⟩ from by
      simp only [u32add, u32sub, e] <;> norm_num] at hstep
    exact hstep
  · have h0 : Relation.ReflTransGen MuxStep ⟨false, 0, 0⟩ ⟨false, 0, 2 ^ 32 - 1⟩ :=
      mux_reach_dc (2 ^ 32 - 1) (by norm_num)
    have h1 : MuxStep ⟨false, 0, 2 ^ 32 - 1⟩ ⟨false, 1, 2 ^ 32 - 1⟩ := by
      have hstep := MuxStep.rxFlow ⟨false, 0, 2 ^ 32 - 1⟩ 1 (some (2 ^ 32 - 1)) (by norm_num)
      rw [show ({ (⟨false, 0, 2 ^ 32 - 1⟩ : MuxState) with
          linkCredit := muxFlowCredit (2 ^ 32 - 1) 1 (some (2 ^ 32 - 1)) } : MuxState)
          = ⟨false, 1, 2 ^ 32 - 1⟩ from by
        simp only [muxFlowCredit, u32add, u32sub, e] <;> norm_num] at hstep
      exact hstep
    have h2 : MuxStep ⟨false, 1, 2 ^ 32 - 1⟩ ⟨true, 1, 2 ^ 32 - 1⟩ :=
      MuxStep.dequeue ⟨false, 1, 2 ^ 32 - 1⟩ rfl (by norm_num)
    have h3 : MuxStep ⟨true, 1, 2 ^ 32 - 1⟩ ⟨true, 0, 2 ^ 32 - 1⟩ := by
      have hstep := MuxStep.rxFlow ⟨true, 1, 2 ^ 32 - 1⟩ 0 (some (2 ^ 32 - 1)) (by norm_num)
      rw [show ({ (⟨true, 1, 2 ^ 32 - 1⟩ : MuxState) with
          linkCredit := muxFlowCredit (2 ^ 32 - 1) 0 (some (2 ^ 32 - 1)) } : MuxState)
          = ⟨true, 0, 2 ^ 32 - 1⟩ from by
        simp only [muxFlowCredit, u32add, u32sub, e] <;> norm_num] at hstep
      exact hstep
    exact .tail (.tail (.tail h0 h1) h2) h3
  · have hstep := MuxStep.handoff ⟨true, 0, 2 ^ 32 - 1⟩ rfl
    rw [show (⟨false, u32sub 0 1, u32add (2 ^ 32 - 1) 1⟩ : MuxState)
        = ⟨false, 2 ^ 32 - 1, 0⟩ from by
      simp only [u32add, u32sub, e] <;> norm_num] at hstep
    exact hstep

/-- C4 (corrected): a message is dequeued for sending only while the
link credit is positive, and each handoff of a final transfer changes
the counters by exactly one in wrapping `uint32` arithmetic — so the
credit stays inside the `uint32` range rather than ever being negative,
and the delivery count is monotone only modulo `2^32`; while nothing is
pending and the credit is zero, the only enabled transitions are
incoming Flow updates, which hand no transfer to the session. -/
theorem C4_mux_credit (s s2 : MuxState) (h : MuxStep s s2) :
    (s.pending = false → s2.pending = true → 0 < s.linkCredit) ∧
    (s.pending = true → s2.pending = false →
      s2.deliveryCount = u32add s.deliveryCount 1 ∧
      s2.linkCredit = u32sub s.linkCredit 1) ∧
    (s.linkCredit < 2 ^ 32 → s2.linkCredit < 2 ^ 32) ∧
    (s.pending = false → s.linkCredit = 0 →
      s2.pending = false ∧ s2.deliveryCount = s.deliveryCount) := by
  cases h with
  | dequeue hp hc =>
    refine ⟨fun _ _ => hc, ?_, fun h3 => h3, ?_⟩
    · intro h1
      rw [hp] at h1
      exact absurd h1 (by decide)
    · intro _ hz
      omega
  | handoff hp =>
    refine ⟨?_, fun _ _ => ⟨rfl, rfl⟩, ?_, ?_⟩
    · intro h1
      rw [hp] at h1
      exact absurd h1 (by decide)
    · intro _
      exact Nat.mod_lt _ (by norm_num)
    · intro h1
      rw [hp] at h1
      exact absurd h1 (by decide)
  | rxFlow lc dc hlc =>
    refine ⟨?_, ?_, ?_, fun h1 _ => ⟨h1, rfl⟩⟩
    · intro h1 h2
      exact absurd h2 (by simp [h1])
    · intro h1 h2
      exact absurd h2 (by simp [h1])
    · intro _
      rcases dc with _ | d <;> exact Nat.mod_lt _ (by norm_num)

/-- Witness for the amended C4 theorem at a concrete dequeue step. -/
theorem C4_mux_credit_witness :
    MuxStep ⟨false, 1, 0⟩ ⟨true, 1, 0⟩ ∧
    (((MuxState.mk false 1 0).pending = false → (MuxState.mk true 1 0).pending = true →
        0 < (MuxState.mk false 1 0).linkCredit) ∧
      ((MuxState.mk false 1 0).pending = true → (MuxState.mk true 1 0).pending = false →
        (MuxState.mk true 1 0).deliveryCount = u32add (MuxState.mk false 1 0).deliveryCount 1 ∧
        (MuxState.mk true 1 0).linkCredit = u32sub (MuxState.mk false 1 0).linkCredit 1) ∧
      ((MuxState.mk false 1 0).linkCredit < 2 ^ 32 →
        (MuxState.mk true 1 0).linkCredit < 2 ^ 32) ∧
      ((MuxState.mk false 1 0).pending = false → (MuxState.mk false 1 0).linkCredit = 0 →
        (MuxState.mk true 1 0).pending = false ∧
        (MuxState.mk true 1 0).deliveryCount = (MuxState.mk false 1 0).deliveryCount)) :=
  ⟨MuxStep.dequeue ⟨false, 1, 0⟩ rfl (by norm_num),
    C4_mux_credit ⟨false, 1, 0⟩ ⟨true, 1, 0⟩ (MuxStep.dequeue ⟨false, 1, 0⟩ rfl (by norm_num))⟩
/-- The Flow performative with the fields the sender reads and writes,
translated from the sources. -/
structure PerformFlow where
  Handle : Option Nat
  DeliveryCount : Option Nat
  LinkCredit : Option Nat
  Available : Option Nat
  Drain : Bool
  Echo : Bool
  NextIncomingID : Option Nat
  IncomingWindow : Nat
  OutgoingWindow : Nat
  NextOutgoingID : Nat
deriving DecidableEq

/-- The Flow branch of `Sender.muxHandleFrame` translated from the
sources: the incoming frame's `LinkCredit` is dereferenced
unconditionally — the translation returns `none` for the nil pointer
the Go code would panic on — and the link credit is recomputed with
`muxFlowCredit`; when `echo` is set the sender answers with exactly one
Flow holding its handle, a copy of its delivery count, and the freshly
computed link credit, all other fields left at their zero values;
without `echo` no reply is produced. -/
def muxHandleFlow (handle : Nat) (s : MuxState) (fr : PerformFlow) :
    Option (MuxState × Option PerformFlow) :=
  match fr.LinkCredit with
  | none => none
  | some lc =>
    let linkCredit := muxFlowCredit s.deliveryCount lc fr.DeliveryCount
    let s2 := { s with linkCredit := linkCredit }
    if fr.Echo then
      some (s2, some { Handle := some handle
                       DeliveryCount := some s.deliveryCount
                       LinkCredit := some linkCredit
                       Available := none
                       Drain := false
                       Echo := false
                       NextIncomingID := none
                       IncomingWindow := 0
                       OutgoingWindow := 0
                       NextOutgoingID := 0 })
    else some (s2, none)

/-- C6: a Flow carrying credit with `echo=true` makes the sender emit
exactly one Flow reply holding its link handle, its current delivery
count and its current link credit (as just recomputed from the Flow
being answered), with no available field, no drain, no echo and no
session fields; a Flow with `echo` unset produces no reply; and a Flow
with no credit at all hits the unconditional dereference, on which the
code cannot proceed. -/
theorem C6_flow_echo (handle lc : Nat) (s : MuxState) (fr : PerformFlow)
    (hlc : fr.LinkCredit = some lc) :
    (fr.Echo = true →
      muxHandleFlow handle s fr =
        some ({ s with linkCredit := muxFlowCredit s.deliveryCount lc fr.DeliveryCount },
          some { Handle := some handle
                 DeliveryCount := some s.deliveryCount
                 LinkCredit := some (muxFlowCredit s.deliveryCount lc fr.DeliveryCount)
                 Available := none
                 Drain := false
                 Echo := false
                 NextIncomingID := none
                 IncomingWindow := 0
                 OutgoingWindow := 0
                 NextOutgoingID := 0 })) ∧
    (fr.Echo = false →
      muxHandleFlow handle s fr =
        some ({ s with linkCredit := muxFlowCredit s.deliveryCount lc fr.DeliveryCount },
          none)) ∧
    (∀ fr2 : PerformFlow, fr2.LinkCredit = none → muxHandleFlow handle s fr2 = none) := by
  refine ⟨?_, ?_, ?_⟩
  · intro hecho
    rw [muxHandleFlow, hlc]
    simp only [hecho, if_true]
  · intro hecho
    rw [muxHandleFlow, hlc]
    simp only [hecho, Bool.false_eq_true, if_false]
  · intro fr2 h2
    rw [muxHandleFlow, h2]

/-- Witness for the C6 theorem at a concrete echo Flow. -/
theorem C6_flow_echo_witness :
    (PerformFlow.mk (some 0) none (some 1) none false true (some 1) 100 100 1).LinkCredit
      = some 1 ∧
    (((PerformFlow.mk (some 0) none (some 1) none false true (some 1) 100 100 1).Echo = true →
      muxHandleFlow 0 ⟨false, 0, 0⟩
          (PerformFlow.mk (some 0) none (some 1) none false true (some 1) 100 100 1) =
        some ({ (⟨false, 0, 0⟩ : MuxState) with
            linkCredit := muxFlowCredit (MuxState.mk false 0 0).deliveryCount 1
              (PerformFlow.mk (some 0) none (some 1) none false true (some 1) 100 100 1).DeliveryCount },
          some { Handle := some 0
                 DeliveryCount := some (MuxState.mk false 0 0).deliveryCount
                 LinkCredit := some (muxFlowCredit (MuxState.mk false 0 0).deliveryCount 1
                   (PerformFlow.mk (some 0) none (some 1) none false true (some 1) 100 100 1).DeliveryCount)
                 Available := none
                 Drain := false
                 Echo := false
                 NextIncomingID := none
                 IncomingWindow := 0
                 OutgoingWindow := 0
                 NextOutgoingID := 0 })) ∧
    ((PerformFlow.mk (some 0) none (some 1) none false true (some 1) 100 100 1).Echo = false →
      muxHandleFlow 0 ⟨false, 0, 0⟩
          (PerformFlow.mk (some 0) none (some 1) none false true (some 1) 100 100 1) =
        some ({ (⟨false, 0, 0⟩ : MuxState) with
            linkCredit := muxFlowCredit (MuxState.mk false 0 0).deliveryCount 1
              (PerformFlow.mk (some 0) none (some 1) none false true (some 1) 100 100 1).DeliveryCount },
          none)) ∧
    (∀ fr2 : PerformFlow, fr2.LinkCredit = none →
      muxHandleFlow 0 ⟨false, 0, 0⟩ fr2 = none)) :=
  ⟨rfl,
    C6_flow_echo 0 1 ⟨false, 0, 0⟩
      (PerformFlow.mk (some 0) none (some 1) none false true (some 1) 100 100 1) rfl⟩

/-- An AMQP-level error as the attach and disposition paths surface it. -/
structure AMQPError where
  Condition : Bytes
  Description : Bytes
deriving DecidableEq

/-- Modelled from the spec: `senderSettleModeValue` — the effective
sender settle mode, `mixed` when unset — is referenced by
`Sender.attach` but not defined among the staged sources. -/
def senderSettleModeValue (ssm : Option Nat) : Nat := ssm.getD ModeMixed

/-- Modelled from the spec: `receiverSettleModeValue` — the effective
receiver settle mode, `first` when unset — is referenced by
`Sender.attach` but not defined among the staged sources. -/
def receiverSettleModeValue (rsm : Option Nat) : Nat := rsm.getD ModeFirst

/-- The guard of `Sender.attach` translated from the sources: sending
unsettled messages to a mode-second receiver is disallowed, so the
attach errors out before anything is sent when the effective sender
settle mode is not `settled` while the effective receiver settle mode
is `second`. -/
def senderAttachCheck (ssm rsm : Option Nat) : Except AMQPError Unit :=
  if senderSettleModeValue ssm ≠ ModeSettled ∧ receiverSettleModeValue rsm = ModeSecond then
    .error ⟨[], [101, 120, 97, 99, 116, 108, 121, 45, 111, 110, 99, 101]⟩
  else .ok ()

/-- C5: attaching a sender fails exactly when the receiver settle mode
in effect is `second` while the sender settle mode is not `settled`
(unset modes defaulting to `first` and `mixed` respectively): in every
other combination the attach guard passes. -/
theorem C5_attach_exactly_once (ssm rsm : Option Nat) :
    (∃ e, senderAttachCheck ssm rsm = .error e) ↔
      (rsm = some ModeSecond ∧ ssm ≠ some ModeSettled) := by
  constructor
  · intro ⟨e, he⟩
    by_cases hc : senderSettleModeValue ssm ≠ ModeSettled ∧
        receiverSettleModeValue rsm = ModeSecond
    · obtain ⟨h1, h2⟩ := hc
      constructor
      · rcases rsm with _ | r
        · exact absurd h2 (by decide)
        · simp only [receiverSettleModeValue, Option.getD_some] at h2
          rw [h2]
      · intro hcontra
        rw [hcontra] at h1
        exact h1 rfl
    · rw [senderAttachCheck, if_neg hc] at he
      exact absurd he (by simp)
  · intro ⟨h1, h2⟩
    subst h1
    refine ⟨⟨[], [101, 120, 97, 99, 116, 108, 121, 45, 111, 110, 99, 101]⟩, ?_⟩
    rw [senderAttachCheck, if_pos ?_]
    refine ⟨?_, rfl⟩
    rcases ssm with _ | m
    · decide
    · simp only [senderSettleModeValue, Option.getD_some]
      intro hcontra
      exact h2 (by rw [hcontra])

/-- A terminal delivery state as a disposition carries it. -/
inductive DeliveryState where
  | accepted
  | rejected (e : AMQPError)
  | released
  | modified
deriving DecidableEq

/-- `Sender.detachOnRejectDisp` translated from the sources: detach on
a rejection only when disposition errors are not ignored
(`detachOnDispositionError`, true by default, is the negation of the
`IgnoreDispositionErrors` option) and no receiver settle mode was
requested or it is `first`. -/
def detachOnRejectDisp (detachOnDispositionError : Bool) (rsm : Option Nat) : Bool :=
  detachOnDispositionError && (rsm == none || rsm == some ModeFirst)

/-- What `Send` returns once the delivery's disposition arrives. -/
inductive SendOutcome where
  | ok
  | detachError (e : AMQPError)
  | rejectError (e : AMQPError)
deriving DecidableEq

/-- The rejected-disposition handling translated from the sources:
`Sender.Send` wraps the rejection in a detach error when
`detachOnRejectDisp` holds — and `Sender.muxHandleFrame` detaches the
link under the same condition — and otherwise surfaces the rejection
error directly, the link staying attached; the Bool is whether the link
remains attached. -/
def muxHandleDisposition (detachOnDispositionError : Bool) (rsm : Option Nat)
    (ds : DeliveryState) : SendOutcome × Bool :=
  match ds with
  | .rejected e =>
    if detachOnRejectDisp detachOnDispositionError rsm then (.detachError e, false)
    else (.rejectError e, true)
  | _ => (.ok, true)

/-- C3: on a rejected disposition, a sender keeping the default
detach-on-reject policy (disposition errors not ignored) whose receiver
settle mode is unset or `first` returns the rejection wrapped as a
detach error and the link detaches; in every other configuration the
rejection error is returned directly and the link remains attached. -/
theorem C3_reject_disposition (dode : Bool) (rsm : Option Nat) (e : AMQPError) :
    ((dode = true ∧ (rsm = none ∨ rsm = some ModeFirst)) →
      muxHandleDisposition dode rsm (.rejected e) = (.detachError e, false)) ∧
    (¬(dode = true ∧ (rsm = none ∨ rsm = some ModeFirst)) →
      muxHandleDisposition dode rsm (.rejected e) = (.rejectError e, true)) := by
  constructor
  · rintro ⟨h1, h2⟩
    subst h1
    have hd : detachOnRejectDisp true rsm = true := by
      rcases h2 with h | h <;> subst h <;> rfl
    simp [muxHandleDisposition, hd]
  · intro hn
    have hd : detachOnRejectDisp dode rsm = false := by
      rcases Bool.eq_false_or_eq_true dode with hig | hig
      · rcases rsm with _ | m
        · exact absurd ⟨hig, Or.inl rfl⟩ hn
        · by_cases hm : m = ModeFirst
          · exact absurd ⟨hig, Or.inr (by rw [hm])⟩ hn
          · simp [detachOnRejectDisp, hig, hm]
      · simp [detachOnRejectDisp, hig]
    simp [muxHandleDisposition, hd]

/-- The manual-credit state of a receiver link translated from the
sources: the pending-drain flag and the credits queued for the next
flow frame; `drained` stands for the non-nil drain channel, set while a
drain is waiting for the remote's flow. -/
structure manualCreditor where
  pendingDrain : Bool
  creditsToAdd : Nat
  drained : Bool
deriving DecidableEq

/-- The errors the manual-credit calls report. -/
inductive CreditErr where
  | linkDraining
  | alreadyDraining
deriving DecidableEq

/-- `manualCreditor.AddCredit` translated from the sources: refused
with the draining error while a drain is in flight, and otherwise added
to the credits queued for the next flow frame (a `uint32` addition).
The staged code has no further check: no queue-capacity or credit-limit
condition appears anywhere in it. -/
def manualCreditor.AddCredit (mc : manualCreditor) (credits : Nat) :
    manualCreditor × Option CreditErr :=
  if mc.drained then (mc, some .linkDraining)
  else ({ mc with creditsToAdd := (mc.creditsToAdd + credits) % 2 ^ 32 }, none)

/-- `manualCreditor.FlowBits` translated from the sources: the next
flow frame's drain flag is whether a drain is in flight, its credit is
the queued credits alone, and both the queued credits and the
pending-drain flag are reset. -/
def manualCreditor.FlowBits (mc : manualCreditor) : (Bool × Nat) × manualCreditor :=
  ((mc.drained, mc.creditsToAdd), { mc with creditsToAdd := 0, pendingDrain := false })

/-- `manualCreditor.Drain` translated from the sources, up to its
blocking behavior: starting a drain while one is in flight fails,
otherwise the drain marker is set. -/
def manualCreditor.Drain (mc : manualCreditor) : manualCreditor × Option CreditErr :=
  if mc.drained then (mc, some .alreadyDraining)
  else ({ mc with drained := true }, none)

/-- `manualCreditor.EndDrain` translated from the sources: the drain
marker is cleared. -/
def manualCreditor.EndDrain (mc : manualCreditor) : manualCreditor :=
  { mc with drained := false }

/-- C7: the staged `AddCredit` has no credit-limit check at all — here
issuing the full `uint32` range of credit in one call, far beyond any
message-queue capacity, succeeds with no error — refuting the claimed
`CreditLimitExceeded` behavior. -/
theorem C7_credit_cex :
    manualCreditor.AddCredit ⟨false, 0, false⟩ 4294967295
      = (⟨false, 4294967295, false⟩, none) ∧
    (manualCreditor.FlowBits ⟨false, 4294967295, false⟩).1 = (false, 4294967295) := by
  constructor
  · decide
  · decide

/-- C7 (corrected): `issue_credit(n)` returns the draining error while
a drain is in progress, leaving the state unchanged; in every other
case — with no capacity condition of any kind — it succeeds,
accumulating `n` into the credit that the next flow frame reports
before resetting it, the flow's drain flag reflecting only whether a
drain is in flight. -/
theorem C7_issue_credit (mc : manualCreditor) (n : Nat) :
    (mc.drained = true →
      manualCreditor.AddCredit mc n = (mc, some .linkDraining)) ∧
    (mc.drained = false →
      (manualCreditor.AddCredit mc n).2 = none ∧
      ((manualCreditor.AddCredit mc n).1.FlowBits).1
        = (false, (mc.creditsToAdd + n) % 2 ^ 32) ∧
      (((manualCreditor.AddCredit mc n).1.FlowBits).2).creditsToAdd = 0) := by
  constructor
  · intro hd
    simp [manualCreditor.AddCredit, hd]
  · intro hd
    refine ⟨?_, ?_, ?_⟩ <;>
      simp [manualCreditor.AddCredit, manualCreditor.FlowBits, hd]
